import Mathlib

/-!
Verification of the debt-network analysis core of the `amo` repository.

The Python sources represent a debt network as a square adjacency matrix of
non-negative integers (`matrix[i][j]` = amount node `i` owes node `j`) plus an
index-to-name map.  This file gives a shallow embedding of the algorithmic
parts (balance analysis, cycle bottleneck computation, cycle settlement,
net-balance settlement, Dijkstra shortest paths, the BEBDiM merge and the
serialization codec) and proves or refutes the specification claims about
them.
-/

namespace Amo

/-! ## Basic matrix model

A matrix is a list of rows of integers.  `getEntry M i j` is `matrix[i][j]`
(with an out-of-range default of `0`; all theorems are stated with in-range
hypotheses matching the Python code's preconditions). -/

def getEntry (M : List (List Int)) (i j : Nat) : Int :=
  (M.getD i []).getD j 0

/-- `Square M n`: the matrix has `n` rows, each of length `n`. -/
def Square (M : List (List Int)) (n : Nat) : Prop :=
  M.length = n ∧ ∀ r ∈ M, r.length = n

/-- All entries non-negative (a valid DebtMatrix). -/
def NonNegMatrix (M : List (List Int)) : Prop :=
  ∀ r ∈ M, ∀ x ∈ r, 0 ≤ x

/-! ## Balance analysis (`analyze_debt_matrix`)

`owed_by_person = sum(matrix[i])`, `owed_to_person = sum(matrix[j][i] for j
in range(n))`, `net_balance = owed_to_person - owed_by_person`. -/

def rowSum (M : List (List Int)) (i : Nat) : Int :=
  (M.getD i []).sum

def colSum (M : List (List Int)) (n i : Nat) : Int :=
  ((List.range n).map fun j => getEntry M j i).sum

def netBalance (M : List (List Int)) (n i : Nat) : Int :=
  colSum M n i - rowSum M i

/-! ## Cycles and bottlenecks

`canonicalize_cycle` drops a trailing repeat of the first node.  A canonical
cycle `[v0, ..., vk-1]` has the wraparound edge list
`[(v0,v1), ..., (vk-2,vk-1), (vk-1,v0)]`, exactly the pairs
`(cycle[i], cycle[(i+1) % len(cycle)])` used throughout the Python code. -/

def canonicalizeCycle (c : List Nat) : List Nat :=
  if 1 < c.length ∧ c.head? = c.getLast? then c.dropLast else c

/-- Minimum of a list of integers, as Python's `min` on a non-empty sequence
(`listMin [] = 0` is an arbitrary default; Python would raise). -/
def listMin : List Int → Int
  | [] => 0
  | [x] => x
  | x :: y :: xs => min x (listMin (y :: xs))

def cycleEdges (c : List Nat) : List (Nat × Nat) :=
  (List.range c.length).map fun i => (c.getD i 0, c.getD ((i + 1) % c.length) 0)

/-- The wraparound bottleneck
`min(matrix[cycle[i]][cycle[(i+1) % len(cycle)]] for i in range(len(cycle)))`
computed by `detect_debt_cycles`, `suggest_settlements_from_cycle`,
`apply_cycle_settlement` and `find_debt_cycle_shortest_back`. -/
def cycleBottleneck (M : List (List Int)) (c : List Nat) : Int :=
  listMin ((cycleEdges c).map fun e => getEntry M e.1 e.2)

/-- The open-chain minimum
`min(matrix[cycle[i]][cycle[i+1]] for i in range(len(cycle) - 1))`
computed by the `/analyze-cycle` and `/send-condonation-email` endpoints of
`DebtCycleApi.py`; it ranges over consecutive edges only. -/
def apiMinTransfer (M : List (List Int)) (c : List Nat) : Int :=
  listMin ((List.range (c.length - 1)).map fun i =>
    getEntry M (c.getD i 0) (c.getD (i + 1) 0))

/-- Write `x` at position `(i, j)` (no-op if out of range, as with
`List.set`; all uses are in range). -/
def setEntry (M : List (List Int)) (i j : Nat) (x : Int) : List (List Int) :=
  M.set i ((M.getD i []).set j x)

/-- Sequentially subtract `m` from the entries at each position in `es`
(the in-place loop `matrix[u][v] -= min_transfer` of
`apply_cycle_settlement`). -/
def subAllEdges (M : List (List Int)) (es : List (Nat × Nat)) (m : Int) : List (List Int) :=
  es.foldl (fun A e => setEntry A e.1 e.2 (getEntry A e.1 e.2 - m)) M

/-- `apply_cycle_settlement`: canonicalize, reject cycles shorter than 2
(returning the matrix untouched), compute the wraparound bottleneck and
subtract it from every wraparound cycle edge in place. -/
def applyCycleSettlement (M : List (List Int)) (c : List Nat) : List (List Int) :=
  let c' := canonicalizeCycle c
  if c'.length < 2 then M
  else subAllEdges M (cycleEdges c') (cycleBottleneck M c')


/-! ## BEBDiM merge (`strict_merge_A_top_left_B_bottom_right`)

Build `D` of shape `(a+b, a+b)` with `A` top-left, `B` bottom-right, zeros
elsewhere, then assign `D[0, a] = 1`.  The numpy assignments are sequential,
so the final bridge write wins over the `B` block when `a = 0`.  When
`b = 0` the bridge index `(0, a)` is out of bounds of the `(a, a)` result
and numpy raises `IndexError`; that failure is modelled as `none`.  The
merge allocates a fresh matrix, so the inputs `A` and `B` are not altered
(immediate in this embedding, where all values are immutable). -/

def strictMerge (A B : List (List Int)) : Option (List (List Int)) :=
  let a := A.length
  let b := B.length
  if b = 0 then none
  else some ((List.range (a + b)).map fun i => (List.range (a + b)).map fun j =>
    if i = 0 ∧ j = a then 1
    else if a ≤ i ∧ a ≤ j then getEntry B (i - a) (j - a)
    else if i < a ∧ j < a then getEntry A i j
    else 0)

/-- `merge_node_maps`: keep `A`'s names at their indices and reindex `B`'s
names by adding the offset `len(A)`; for index-keyed maps `{0..a-1}` and
`{0..b-1}` this is list concatenation. -/
def mergeNodeNames (na nb : List String) : List String := na ++ nb


/-! ## Serialization codec

The serialized network is the JSON object `{"nodes": ..., "matrix": ...}`
(the Base64 framing is a fixed byte-level bijection applied outside this
structure, so the codec is modelled at the level of the decoded JSON value).
`json.dumps` renders the integer keys of the name map as decimal strings;
`decode_adjacency_code` converts them back with `int(k)`. -/

inductive Json where
  | num (n : Int)
  | str (s : String)
  | arr (xs : List Json)
  | obj (fields : List (String × Json))

def digitChar (d : Nat) : Char :=
  Char.ofNat ('0'.toNat + d % 10)

def charDigit (c : Char) : Option Nat :=
  if '0' ≤ c ∧ c ≤ '9' then some (c.toNat - '0'.toNat) else none

def natDigitsRev (n : Nat) : List Nat :=
  if h : n < 10 then [n]
  else n % 10 :: natDigitsRev (n / 10)
termination_by n
decreasing_by exact Nat.div_lt_self (by omega) (by omega)

/-- Python's `str(k)` on a non-negative integer: its decimal digits. -/
def natToDigitString (n : Nat) : String :=
  String.mk ((natDigitsRev n).reverse.map digitChar)

def parseDigitsAux : List Char → Nat → Option Nat
  | [], acc => some acc
  | c :: cs, acc =>
      match charDigit c with
      | some d => parseDigitsAux cs (acc * 10 + d)
      | none => none

/-- Python's `int(k)` on a plain decimal string (`none` models the
`ValueError` on the empty or non-numeric string). -/
def parseNat (s : String) : Option Nat :=
  if s.data = [] then none else parseDigitsAux s.data 0

/-- Python's `str(v)` applied to a decoded JSON value.  Only the string and
number cases are ever reached by the codec theorems; Python would render a
container via its repr, which no theorem depends on. -/
def jsonToStr (j : Json) : String :=
  match j with
  | .str s => s
  | .num n => if n < 0 then "-" ++ natToDigitString n.natAbs else natToDigitString n.natAbs
  | .arr _ => ""
  | .obj _ => ""

/-- Python's `int(v)` applied to a decoded JSON value (`TypeError` on
containers modelled as `none`). -/
def jsonToInt (j : Json) : Option Int :=
  match j with
  | .num n => some n
  | .str s => (parseNat s).map Int.ofNat
  | .arr _ => none
  | .obj _ => none

/-- Sequence a fallible function over a list, failing on the first error:
the looping/raising behaviour of a Python comprehension. -/
def mapOption (f : α → Option β) : List α → Option (List β)
  | [] => some []
  | x :: xs =>
      match f x, mapOption f xs with
      | some y, some ys => some (y :: ys)
      | _, _ => none

/-- Python dict lookup on a decoded JSON object; `json.loads` keeps the last
occurrence of a duplicated key. -/
def lookupField (fields : List (String × Json)) (k : String) : Option Json :=
  match fields with
  | [] => none
  | (k2, v) :: rest =>
      match lookupField rest k with
      | some r => some r
      | none => if k2 = k then some v else none

/-- `encode_adjacency_matrix`: the JSON object
`{"nodes": {str(i): name, ...}, "matrix": [[...], ...]}`. -/
def encodeAdjacencyMatrix (matrix : List (List Int)) (names : List (Nat × String)) : Json :=
  .obj [("nodes", .obj (names.map fun p => (natToDigitString p.1, .str p.2))),
        ("matrix", .arr (matrix.map fun row => .arr (row.map Json.num)))]

def decodeRow (j : Json) : Option (List Int) :=
  match j with
  | .arr xs => mapOption jsonToInt xs
  | _ => none

def decodeMatrixRows (rows : List Json) : Option (List (List Int)) :=
  mapOption decodeRow rows

def defaultNames (n : Nat) : List (Nat × String) :=
  (List.range n).map fun i => (i, "Node" ++ natToDigitString i)

/-- `decode_adjacency_code` (Adjacencymatrixinput.py): accept either the
combined object `{"nodes": ..., "matrix": ...}` (with `nodes` a list or a
dict, defaulting to `Node<i>` when absent) or a bare matrix-only array. -/
def decodeAdjacencyCode (j : Json) : Option (List (List Int) × List (Nat × String)) :=
  match j with
  | .arr rows =>
      match decodeMatrixRows rows with
      | some matrix => some (matrix, defaultNames matrix.length)
      | none => none
  | .obj fields =>
      match lookupField fields "matrix" with
      | some (.arr rows) =>
          match decodeMatrixRows rows with
          | some matrix =>
              match lookupField fields "nodes" with
              | some (.arr xs) =>
                  some (matrix, xs.enum.map fun p => (p.1, jsonToStr p.2))
              | some (.obj kvs) =>
                  match mapOption
                      (fun kv : String × Json =>
                        (parseNat kv.1).map fun i => (i, jsonToStr kv.2)) kvs with
                  | some names => some (matrix, names)
                  | none => none
              | some _ => none
              | none => some (matrix, defaultNames matrix.length)
          | none => none
      | some _ => none
      | none => none
  | _ => none


/-! ## Name-keyed insight rankings (`analyze_debt_matrix`)

The analysis builds `total_owed_by`, `total_owed_to` and `net_balance` as
Python dicts keyed by the node's display name, assigned in index order, and
then takes `max(...)`/`min(...)` over `dict.items()`.  A dict assignment to
an existing key overwrites its value in place (keeping the insertion
position); `max`/`min` return the first item attaining the extremum. -/

def dictInsert (d : List (String × Int)) (k : String) (v : Int) : List (String × Int) :=
  if d.any fun p => p.1 == k then d.map fun p => if p.1 = k then (k, v) else p
  else d ++ [(k, v)]

def buildNameDict (names : Nat → String) (value : Nat → Int) (n : Nat) :
    List (String × Int) :=
  (List.range n).foldl (fun d i => dictInsert d (names i) (value i)) []

/-- Python's `max(items, key=lambda x: x[1])`: left fold keeping the current
item unless the candidate is strictly greater, i.e. the first item attaining
the maximum wins; `none` models the `ValueError` on an empty dict. -/
def pyMaxBySnd (l : List (String × Int)) : Option (String × Int) :=
  match l with
  | [] => none
  | x :: xs => some (xs.foldl (fun acc y => if acc.2 < y.2 then y else acc) x)

/-- Python's `min(items, key=lambda x: x[1])`, dually. -/
def pyMinBySnd (l : List (String × Int)) : Option (String × Int) :=
  match l with
  | [] => none
  | x :: xs => some (xs.foldl (fun acc y => if y.2 < acc.2 then y else acc) x)

def owedToDict (M : List (List Int)) (names : Nat → String) (n : Nat) :=
  buildNameDict names (fun i => colSum M n i) n

def owedByDict (M : List (List Int)) (names : Nat → String) (n : Nat) :=
  buildNameDict names (fun i => rowSum M i) n

def netBalanceDict (M : List (List Int)) (names : Nat → String) (n : Nat) :=
  buildNameDict names (fun i => netBalance M n i) n

/-- `most_owed = max(total_owed_to.items(), key=...)`. -/
def mostOwedTo (M : List (List Int)) (names : Nat → String) (n : Nat) :=
  pyMaxBySnd (owedToDict M names n)

/-- `most_debt = max(total_owed_by.items(), key=...)`. -/
def owesTheMost (M : List (List Int)) (names : Nat → String) (n : Nat) :=
  pyMaxBySnd (owedByDict M names n)

/-- `top_creditor = max(net_balance.items(), key=...)`. -/
def topCreditor (M : List (List Int)) (names : Nat → String) (n : Nat) :=
  pyMaxBySnd (netBalanceDict M names n)

/-- `top_debtor = min(net_balance.items(), key=...)`. -/
def topDebtor (M : List (List Int)) (names : Nat → String) (n : Nat) :=
  pyMinBySnd (netBalanceDict M names n)


/-! ## Two-hop-then-shortest-back cycle discovery

`find_debt_cycle_shortest_back(matrix, node_names, A, B)` requires a direct
edge `matrix[A][B] > 0`, then calls `dijkstra_igraph_to_target(matrix, B, A,
node_names)` for the path back and composes `[A, B] ++ path[1:]`,
canonicalized.  The embedding works over node indices (name resolution is
the bijection set up by `name_to_index`). -/

inductive CycleSearchResult where
  | noDirectEdge
  | noPath
  | foundCycle (c : List Nat)
deriving DecidableEq

/-- The value returned by `dijkstra_igraph_to_target` in `core_igraph.py`:
the function prints the distance and the path but ends without a `return`
statement, so every call evaluates to Python's `None`. -/
def dijkstraIgraphToTargetReturn (_M : List (List Int)) (_s _t : Nat) :
    Option (List Nat) :=
  none

/-- `find_debt_cycle_shortest_back` over indices `u` (start) and `v`
(second): `None` or a too-short path back is reported as "no path". -/
def findDebtCycleShortestBack (M : List (List Int)) (u v : Nat) : CycleSearchResult :=
  if getEntry M u v ≤ 0 then .noDirectEdge
  else
    match dijkstraIgraphToTargetReturn M v u with
    | none => .noPath
    | some p =>
        if p.length < 2 then .noPath
        else .foundCycle (canonicalizeCycle (u :: v :: p.tail))

/-! ## Net-balance settlement (`suggest_settlements`)

Creditors are the positive balances sorted descending, debtors the negative
balances sorted ascending; the two-pointer loop repeatedly transfers
`payment = min(-debt, credit)` and advances past parties whose remaining
balance reaches exactly 0.  Since `min(-d, c)` always equals one of its two
arguments, after each payment at least one of the two current parties is at
exactly 0, so the branch below in which only the creditor is exhausted is
taken exactly when `c - p = 0`; the loop of the source advances the same
pointers. -/

def settleAux : List (Nat × Int) → List (Nat × Int) → List (Nat × Nat × Int)
  | [], _ => []
  | _ :: _, [] => []
  | (dN, d) :: ds, (cN, c) :: cs =>
      let p := min (-d) c
      if d + p = 0 then
        if c - p = 0 then (dN, cN, p) :: settleAux ds cs
        else (dN, cN, p) :: settleAux ds ((cN, c - p) :: cs)
      else (dN, cN, p) :: settleAux ((dN, d + p) :: ds) cs
termination_by ds cs => ds.length + cs.length
decreasing_by
  all_goals simp <;> omega

/-- `suggest_settlements(net_balance)`: the produced transaction list
`(debtor, creditor, payment)`. -/
def suggestSettlements (nb : List (Nat × Int)) : List (Nat × Nat × Int) :=
  let creditors := (nb.filter fun p => 0 < p.2).mergeSort fun x y => decide (y.2 ≤ x.2)
  let debtors := (nb.filter fun p => p.2 < 0).mergeSort fun x y => decide (x.2 ≤ y.2)
  settleAux debtors creditors

/-- Total amount paid by node `x` as a debtor across a transaction list. -/
def paidBy (ts : List (Nat × Nat × Int)) (x : Nat) : Int :=
  ((ts.filter fun t => t.1 == x).map fun t => t.2.2).sum

/-- Total amount received by node `x` as a creditor. -/
def receivedBy (ts : List (Nat × Nat × Int)) (x : Nat) : Int :=
  ((ts.filter fun t => t.2.1 == x).map fun t => t.2.2).sum

/-- The net-balance vector of a DebtMatrix, keyed by node index. -/
def netBalanceVector (M : List (List Int)) (n : Nat) : List (Nat × Int) :=
  (List.range n).map fun i => (i, netBalance M n i)


/-! ## Dijkstra over the adjacency matrix (`core.py`)

Both `dijkstra_to_target` and the all-targets `dijkstra` keep a distance
array initialised to `sys.maxsize` (the 64-bit sentinel), a visited flag
array, and a parent array; each iteration linearly scans for the unvisited
vertex of smallest finite distance (`nearest_vertex = -1` when none
remains) and relaxes its outgoing positive edges.  `dijkstra_to_target`
breaks on `nearest_vertex == -1` and on reaching the destination; the
all-targets `dijkstra` has no such breaks, so in an iteration with
`nearest_vertex == -1` the statement `added[nearest_vertex] = True` marks
`added[-1]`, which in Python is the highest-index vertex, and the
relaxation reads row `matrix[-1]`, the last row, with
`shortest_distance == sys.maxsize` (relaxing nothing, as all weights are
non-negative). -/

def INF : Int := 2 ^ 63 - 1

structure DijkstraState where
  dist : List Int
  added : List Bool
  parents : List Int

/-- The selection scan: fold over vertex indices starting from
`(-1, sys.maxsize)`, taking each unvisited vertex strictly closer than the
current best. -/
def selectMin (dist : List Int) (added : List Bool) (n : Nat) : Int × Int :=
  (List.range n).foldl
    (fun acc v =>
      if added.getD v false = false ∧ dist.getD v INF < acc.2
      then ((v : Int), dist.getD v INF) else acc)
    (-1, INF)

/-- The relaxation pass reading row `u` with selected distance `du`. -/
def relaxAll (M : List (List Int)) (n : Nat) (u : Nat) (du : Int)
    (dist parents : List Int) : List Int × List Int :=
  (List.range n).foldl
    (fun dp v =>
      if 0 < getEntry M u v ∧ du + getEntry M u v < dp.1.getD v INF
      then (dp.1.set v (du + getEntry M u v), dp.2.set v (u : Int)) else dp)
    (dist, parents)

def initState (n s : Nat) : DijkstraState :=
  ⟨(List.replicate n INF).set s 0, List.replicate n false, List.replicate n (-1)⟩

/-- The loop of `dijkstra_to_target`: `range(n)` iterations, breaking when
no reachable unvisited vertex remains and (after marking) when the
destination is reached. -/
def djLoopT (M : List (List Int)) (n : Nat) (dest : Nat) :
    Nat → DijkstraState → DijkstraState
  | 0, st => st
  | k + 1, st =>
      let sel := selectMin st.dist st.added n
      if sel.1 = -1 then st
      else
        let u := sel.1.toNat
        let st2 : DijkstraState := ⟨st.dist, st.added.set u true, st.parents⟩
        if u = dest then st2
        else
          let dp := relaxAll M n u sel.2 st2.dist st2.parents
          djLoopT M n dest k ⟨dp.1, st2.added, dp.2⟩

/-- `print_path`: follow the parent pointers from `v` back to the root and
print the chain in root-first order (`fuel` bounds the recursion; every use
supplies `fuel = n`, which suffices by `buildPath_spec`). -/
def buildPath (parents : List Int) : Nat → Nat → List Nat
  | 0, v => [v]
  | fuel + 1, v =>
      if parents.getD v (-1) = -1 then [v]
      else buildPath parents fuel (parents.getD v (-1)).toNat ++ [v]

/-- `dijkstra_to_target(matrix, s, dest, names)`: the printed distance and
path (`n_vertices = len(adjacency_matrix[0])`). -/
def dijkstraToTarget (M : List (List Int)) (s dest : Nat) : Int × List Nat :=
  let n := (M.getD 0 []).length
  let final := djLoopT M n dest n (initState n s)
  (final.dist.getD dest INF, buildPath final.parents n dest)

/-- Python list assignment `added[i] = True` where `i` may be `-1`
(negative indices count from the end). -/
def pyMark (added : List Bool) (i : Int) : List Bool :=
  if i < 0 then added.set (added.length - (-i).toNat) true
  else added.set i.toNat true

/-- Python row read `matrix[i]` where `i` may be `-1`. -/
def pyRow (n : Nat) (i : Int) : Nat :=
  if i < 0 then n - (-i).toNat else i.toNat

/-- The loop of the all-targets `dijkstra`: `range(1, n)` iterations, no
breaks; the marking and the relaxation row use Python negative-index
semantics when the selection produced `-1`. -/
def djLoopAll (M : List (List Int)) (n : Nat) : Nat → DijkstraState → DijkstraState
  | 0, st => st
  | k + 1, st =>
      let sel := selectMin st.dist st.added n
      let added2 := pyMark st.added sel.1
      let dp := relaxAll M n (pyRow n sel.1) sel.2 st.dist st.parents
      djLoopAll M n k ⟨dp.1, added2, dp.2⟩

/-- The all-targets `dijkstra(matrix, s, names)` of `core.py` (also
`ProfofConcept10000`): final state after `n - 1` iterations. -/
def dijkstraAll (M : List (List Int)) (s : Nat) : DijkstraState :=
  let n := (M.getD 0 []).length
  djLoopAll M n (n - 1) (initState n s)

/-- Directed edge relation of the debt graph restricted to `n` vertices. -/
def Edge (M : List (List Int)) (n u v : Nat) : Prop :=
  u < n ∧ v < n ∧ 0 < getEntry M u v

/-- Reachability along positive-weight edges. -/
def Reach (M : List (List Int)) (n s v : Nat) : Prop :=
  Relation.ReflTransGen (Edge M n) s v

def addedCount (added : List Bool) : Nat := (added.filter id).length

/-- Rank of a vertex under a distance table: how many of the `n` vertices
are strictly closer. Parent pointers strictly decrease the distance, so this
bounds the depth of a parent chain (used to discharge `print_path`'s
recursion with fuel `n`). -/
def distRank (dist : List Int) (n v : Nat) : Nat :=
  ((List.range n).filter (fun u => decide (dist.getD u INF < dist.getD v INF))).length

/-- Loop invariant of `dijkstra_to_target`: array lengths, the source is
pinned at distance `0` with no parent, finite distances are non-negative,
bounded by `sys.maxsize` and by `|added| * W` (for a weight bound `W`),
finite vertices are reachable, every non-source finite vertex has a parent,
parent pointers are positive-weight edges that strictly decrease the
distance, and every processed vertex other than the destination has had all
its positive out-edges relaxed to finite distances. -/
structure InvT (M : List (List Int)) (n s dest : Nat) (W : Int)
    (st : DijkstraState) : Prop where
  hdl : st.dist.length = n
  hal : st.added.length = n
  hpl : st.parents.length = n
  hds : st.dist.getD s INF = 0
  hps : st.parents.getD s (-1) = -1
  hnonneg : ∀ v, v < n → 0 ≤ st.dist.getD v INF
  hleI : ∀ v, v < n → st.dist.getD v INF ≤ INF
  hbnd : ∀ v, v < n → st.dist.getD v INF < INF →
      st.dist.getD v INF ≤ (addedCount st.added : Int) * W
  hreach : ∀ v, v < n → st.dist.getD v INF < INF → Reach M n s v
  hpar : ∀ v, v < n → v ≠ s → st.dist.getD v INF < INF →
      st.parents.getD v (-1) ≠ -1
  hpspec : ∀ v, v < n → st.parents.getD v (-1) ≠ -1 →
      ∃ u, u < n ∧ st.parents.getD v (-1) = (u : Int) ∧ 0 < getEntry M u v ∧
        st.dist.getD u INF + getEntry M u v ≤ st.dist.getD v INF
  hclosed : ∀ u, u < n → st.added.getD u false = true →
      u = dest ∨ ∀ v, v < n → 0 < getEntry M u v → st.dist.getD v INF < INF

/-! ## Helper lemmas -/

theorem list_sum_eq_getD (l : List Int) :
    l.sum = ∑ j ∈ Finset.range l.length, l.getD j 0 := by
  induction l with
  | nil => simp
  | cons x xs ih =>
      rw [List.sum_cons, List.length_cons, Finset.sum_range_succ', ih]
      simp [List.getD, add_comm]

theorem sum_map_range (n : Nat) (f : Nat → Int) :
    ((List.range n).map f).sum = ∑ j ∈ Finset.range n, f j := by
  induction n with
  | zero => simp
  | succ m ih => rw [List.range_succ, Finset.sum_range_succ, List.map_append, List.sum_append, ih]; simp

theorem rowSum_eq (M : List (List Int)) (n : Nat) (hsq : Square M n) (i : Nat) (hi : i < n) :
    rowSum M i = ∑ j ∈ Finset.range n, getEntry M i j := by
  obtain ⟨hlen, hrow⟩ := hsq
  have hi' : i < M.length := by omega
  have hmem : M.getD i [] ∈ M := by
    rw [List.getD_eq_getElem?_getD, List.getElem?_eq_getElem hi']
    exact List.getElem_mem hi'
  have hr : (M.getD i []).length = n := hrow _ hmem
  rw [rowSum, list_sum_eq_getD, hr]
  rfl

theorem sum_netBalance_eq_zero (M : List (List Int)) (n : Nat) (hsq : Square M n) :
    ∑ i ∈ Finset.range n, netBalance M n i = 0 := by
  have hrow : ∀ i ∈ Finset.range n, rowSum M i = ∑ j ∈ Finset.range n, getEntry M i j := by
    intro i hi
    exact rowSum_eq M n hsq i (Finset.mem_range.mp hi)
  calc ∑ i ∈ Finset.range n, netBalance M n i
      = ∑ i ∈ Finset.range n, colSum M n i - ∑ i ∈ Finset.range n, rowSum M i := by
        simp [netBalance, Finset.sum_sub_distrib]
    _ = 0 := by
        rw [Finset.sum_congr rfl hrow]
        have : ∀ i ∈ Finset.range n, colSum M n i = ∑ j ∈ Finset.range n, getEntry M j i := by
          intro i _; exact sum_map_range n _
        rw [Finset.sum_congr rfl this, Finset.sum_comm]
        ring

/-- C1: for every valid (square) DebtMatrix, the per-node net balances
`net_balance[i] = column_sum(i) - row_sum(i)` computed by the balance
analysis sum to exactly 0. -/
theorem C1_net_balance_sums_to_zero (M : List (List Int)) (n : Nat)
    (hsq : Square M n) (_hnn : NonNegMatrix M) :
    ∑ i ∈ Finset.range n, netBalance M n i = 0 :=
  sum_netBalance_eq_zero M n hsq

/-- Witness for C1 at the worked 4-node example from the source comments. -/
theorem C1_witness :
    Square [[0, 10, 0, 0], [0, 0, 20, 0], [0, 0, 0, 30], [40, 0, 0, 0]] 4 ∧
    ∑ i ∈ Finset.range 4,
      netBalance [[0, 10, 0, 0], [0, 0, 20, 0], [0, 0, 0, 30], [40, 0, 0, 0]] 4 i = 0 := by
  refine ⟨⟨rfl, by decide⟩, ?_⟩
  exact C1_net_balance_sums_to_zero _ 4 ⟨rfl, by decide⟩
    (show ∀ r ∈ [[(0:Int), 10, 0, 0], [0, 0, 20, 0], [0, 0, 0, 30], [40, 0, 0, 0]],
      ∀ x ∈ r, 0 ≤ x by decide)

/-! ## List access and minimum lemmas -/

theorem getD_of_lt (l : List Int) (i : Nat) (d : Int) (h : i < l.length) :
    l.getD i d = l[i] := by
  rw [List.getD_eq_getElem?_getD, List.getElem?_eq_getElem h]
  rfl

theorem getD_of_lt_nat (l : List Nat) (i : Nat) (d : Nat) (h : i < l.length) :
    l.getD i d = l[i] := by
  rw [List.getD_eq_getElem?_getD, List.getElem?_eq_getElem h]
  rfl

theorem listMin_mem : ∀ (l : List Int), l ≠ [] → listMin l ∈ l
  | [], h => absurd rfl h
  | [x], _ => by simp [listMin]
  | x :: y :: xs, _ => by
      rcases min_cases x (listMin (y :: xs)) with ⟨heq, _⟩ | ⟨heq, _⟩
      · simp [listMin, heq]
      · have := listMin_mem (y :: xs) (by simp)
        simp only [listMin, heq]
        exact List.mem_cons_of_mem x this

theorem listMin_le : ∀ (l : List Int), ∀ x ∈ l, listMin l ≤ x
  | [], x, hx => by simp at hx
  | [a], x, hx => by
      simp at hx
      simp [listMin, hx]
  | a :: b :: xs, x, hx => by
      rcases List.mem_cons.mp hx with rfl | hx'
      · exact min_le_left _ _
      · exact le_trans (min_le_right _ _) (listMin_le (b :: xs) x hx')

theorem range_map_getD (c : List Nat) :
    ((List.range c.length).map fun i => c.getD i 0) = c := by
  apply List.ext_getElem
  · simp
  · intro i h1 h2
    simp only [List.getElem_map, List.getElem_range]
    exact getD_of_lt_nat c i 0 h2

/-! ## Cycle edge lemmas -/

theorem cycleEdges_length (c : List Nat) : (cycleEdges c).length = c.length := by
  simp [cycleEdges]

theorem cycleEdges_map_fst (c : List Nat) : (cycleEdges c).map Prod.fst = c := by
  rw [cycleEdges, List.map_map]
  exact range_map_getD c

theorem cycleEdges_nodup (c : List Nat) (h : c.Nodup) : (cycleEdges c).Nodup := by
  have : ((cycleEdges c).map Prod.fst).Nodup := by rw [cycleEdges_map_fst]; exact h
  exact this.of_map _

theorem cycleEdges_mem_lt (c : List Nat) (n : Nat) (hc : ∀ v ∈ c, v < n)
    (hlen : 1 ≤ c.length) : ∀ e ∈ cycleEdges c, e.1 < n ∧ e.2 < n := by
  intro e he
  simp only [cycleEdges, List.mem_map, List.mem_range] at he
  obtain ⟨i, hi, rfl⟩ := he
  constructor
  · refine hc _ ?_
    rw [getD_of_lt_nat c i 0 hi]
    exact List.getElem_mem hi
  · refine hc _ ?_
    have h2 : (i + 1) % c.length < c.length := Nat.mod_lt _ (by omega)
    rw [getD_of_lt_nat c _ 0 h2]
    exact List.getElem_mem h2

theorem canonicalizeCycle_of_nodup (c : List Nat) (h : c.Nodup) :
    canonicalizeCycle c = c := by
  rw [canonicalizeCycle, if_neg]
  rintro ⟨hlen, heq⟩
  match c, h, heq with
  | x :: y :: rest, h, heq =>
      have hne : (y :: rest : List Nat) ≠ [] := by simp
      have hhead : (x :: y :: rest).head? = some x := rfl
      have hlast : (x :: y :: rest).getLast? = (y :: rest).getLast? := by
        simp [List.getLast?_cons_cons]
      have hlast2 : (y :: rest).getLast? = some ((y :: rest).getLast hne) :=
        List.getLast?_eq_getLast _ _
      rw [hhead, hlast, hlast2, Option.some_inj] at heq
      have hmem : (y :: rest).getLast hne ∈ y :: rest := List.getLast_mem hne
      rw [← heq] at hmem
      exact (List.nodup_cons.mp h).1 hmem

/-! ## Entry update lemmas -/

theorem setEntry_square (M : List (List Int)) (n : Nat) (hsq : Square M n)
    (i j : Nat) (x : Int) : Square (setEntry M i j x) n := by
  obtain ⟨hlen, hrow⟩ := hsq
  by_cases hi : i < M.length
  · constructor
    · simp [setEntry, hlen]
    · intro r hr
      rcases List.mem_or_eq_of_mem_set hr with h | h
      · exact hrow r h
      · subst h
        rw [List.length_set]
        apply hrow
        rw [List.getD_eq_getElem?_getD, List.getElem?_eq_getElem hi]
        exact List.getElem_mem hi
  · rw [setEntry, List.set_eq_of_length_le (by omega)]
    exact ⟨hlen, hrow⟩


theorem getEntry_setEntry (M : List (List Int)) (n : Nat) (hsq : Square M n)
    (u v : Nat) (hu : u < n) (hv : v < n) (x : Int) (i j : Nat) :
    getEntry (setEntry M u v x) i j = if u = i ∧ v = j then x else getEntry M i j := by
  obtain ⟨hlen, hrow⟩ := hsq
  have hu' : u < M.length := by omega
  have hrowu : M.getD u [] = M[u] := by
    rw [List.getD_eq_getElem?_getD, List.getElem?_eq_getElem hu']
    rfl
  have hvu : v < (M.getD u []).length := by
    rw [hrowu]
    rw [hrow _ (List.getElem_mem hu')]
    omega
  by_cases hiu : i = u
  · subst hiu
    have hgot : (setEntry M i v x).getD i [] = (M.getD i []).set v x := by
      rw [setEntry, List.getD_eq_getElem?_getD, List.getElem?_set_self (by simpa using hu')]
      rfl
    by_cases hjv : j = v
    · subst hjv
      rw [getEntry, hgot, if_pos ⟨rfl, rfl⟩, List.getD_eq_getElem?_getD,
        List.getElem?_set_self hvu]
      rfl
    · have hvj : v ≠ j := fun h => hjv h.symm
      rw [getEntry, hgot, if_neg (by tauto), List.getD_eq_getElem?_getD,
        List.getElem?_set_ne hvj, ← List.getD_eq_getElem?_getD, ← getEntry]
  · have hrow_ne : (setEntry M u v x).getD i [] = M.getD i [] := by
      have hui : u ≠ i := fun h => hiu h.symm
      rw [setEntry, List.getD_eq_getElem?_getD, List.getElem?_set_ne hui,
        ← List.getD_eq_getElem?_getD]
    rw [getEntry, hrow_ne, if_neg (by tauto), ← getEntry]

theorem getEntry_subAllEdges (es : List (Nat × Nat)) (M : List (List Int)) (n : Nat)
    (hsq : Square M n) (hnd : es.Nodup) (hes : ∀ e ∈ es, e.1 < n ∧ e.2 < n) (m : Int)
    (i j : Nat) :
    getEntry (subAllEdges M es m) i j
      = getEntry M i j - (if (i, j) ∈ es then m else 0) := by
  induction es generalizing M with
  | nil => simp [subAllEdges]
  | cons e rest ih =>
      obtain ⟨he1, he2⟩ := hes e (List.mem_cons_self _ _)
      have hstep : subAllEdges M (e :: rest) m
          = subAllEdges (setEntry M e.1 e.2 (getEntry M e.1 e.2 - m)) rest m := rfl
      have hsq2 : Square (setEntry M e.1 e.2 (getEntry M e.1 e.2 - m)) n :=
        setEntry_square M n hsq _ _ _
      rw [hstep, ih _ hsq2 (List.nodup_cons.mp hnd).2
        (fun x hx => hes x (List.mem_cons_of_mem _ hx)),
        getEntry_setEntry M n hsq e.1 e.2 he1 he2 _ i j]
      by_cases hij : e.1 = i ∧ e.2 = j
      · obtain ⟨h1, h2⟩ := hij
        subst h1
        subst h2
        have hmem : ((e.1, e.2) : Nat × Nat) ∈ e :: rest := by simp
        have hnotrest : ((e.1, e.2) : Nat × Nat) ∉ rest := by
          have := (List.nodup_cons.mp hnd).1
          simpa using this
        rw [if_pos ⟨rfl, rfl⟩, if_pos hmem, if_neg hnotrest]
        ring
      · have hne : ((i, j) : Nat × Nat) ≠ e := by
          intro h
          rw [← h] at hij
          exact hij ⟨rfl, rfl⟩
        have hiff : (((i, j) : Nat × Nat) ∈ e :: rest) ↔ ((i, j) : Nat × Nat) ∈ rest := by
          rw [List.mem_cons]
          exact or_iff_right hne
        have hsame : (if ((i, j) : Nat × Nat) ∈ e :: rest then m else 0)
            = (if ((i, j) : Nat × Nat) ∈ rest then m else 0) := if_congr hiff rfl rfl
        rw [if_neg hij, hsame]

/-! ## C2: the two bottleneck conventions -/

/-- C2 (code bug): `detect_debt_cycles` and `suggest_settlements_from_cycle`
compute the bottleneck over the full wraparound ring, but the
`/analyze-cycle` endpoint of `DebtCycleApi.py` computes it over
`range(len(cycle) - 1)` only, so the closing edge back to the first node does
not participate there.  On the matrix `[[0,10],[5,0]]` with the canonical
cycle `[0,1]`, the wraparound bottleneck is `5` but the endpoint reports
`10`, ignoring the closing edge `1 -> 0` of weight `5`. -/
theorem C2_api_min_omits_closing_edge :
    cycleBottleneck [[0, 10], [5, 0]] [0, 1] = 5 ∧
    apiMinTransfer [[0, 10], [5, 0]] [0, 1] = 10 ∧
    getEntry [[0, 10], [5, 0]] 1 0 = 5 ∧
    apiMinTransfer [[0, 10], [5, 0]] [0, 1] ≠ cycleBottleneck [[0, 10], [5, 0]] [0, 1] := by
  refine ⟨by decide, by decide, by decide, by decide⟩

/-! ## C3: applying a cycle settlement -/

/-- C3: for a canonical cycle (distinct in-range nodes, length at least 2)
whose wraparound edges are all positive, `apply_cycle_settlement` subtracts
the bottleneck from every wraparound cycle edge; afterwards the edge that
held the bottleneck value is exactly 0, no cycle edge is negative, and every
entry that is not a wraparound cycle edge is unchanged. -/
theorem C3_apply_cycle_settlement (M : List (List Int)) (n : Nat) (c : List Nat)
    (hsq : Square M n) (hc : ∀ v ∈ c, v < n) (hnd : c.Nodup) (hlen : 2 ≤ c.length)
    (_hpos : ∀ e ∈ cycleEdges c, 0 < getEntry M e.1 e.2) :
    (∀ e ∈ cycleEdges c,
        getEntry (applyCycleSettlement M c) e.1 e.2
          = getEntry M e.1 e.2 - cycleBottleneck M c) ∧
    (∃ e ∈ cycleEdges c, getEntry M e.1 e.2 = cycleBottleneck M c ∧
        getEntry (applyCycleSettlement M c) e.1 e.2 = 0) ∧
    (∀ e ∈ cycleEdges c, 0 ≤ getEntry (applyCycleSettlement M c) e.1 e.2) ∧
    (∀ i j, i < n → j < n → (i, j) ∉ cycleEdges c →
        getEntry (applyCycleSettlement M c) i j = getEntry M i j) := by
  have hcanon : canonicalizeCycle c = c := canonicalizeCycle_of_nodup c hnd
  have happ : applyCycleSettlement M c
      = subAllEdges M (cycleEdges c) (cycleBottleneck M c) := by
    rw [applyCycleSettlement]
    simp only [hcanon]
    exact if_neg (by omega)
  have hend : ∀ e ∈ cycleEdges c, e.1 < n ∧ e.2 < n :=
    cycleEdges_mem_lt c n hc (by omega)
  have hchar : ∀ i j : Nat,
      getEntry (applyCycleSettlement M c) i j
        = getEntry M i j
          - (if (i, j) ∈ cycleEdges c then cycleBottleneck M c else 0) := by
    intro i j
    rw [happ]
    exact getEntry_subAllEdges _ M n hsq (cycleEdges_nodup c hnd) hend _ i j
  have hmin_le : ∀ e ∈ cycleEdges c, cycleBottleneck M c ≤ getEntry M e.1 e.2 := by
    intro e he
    exact listMin_le _ _ (List.mem_map_of_mem _ he)
  have hedges_ne : cycleEdges c ≠ [] := by
    intro h
    have := cycleEdges_length c
    rw [h] at this
    simp at this
    omega
  refine ⟨?_, ?_, ?_, ?_⟩
  · intro e he
    rw [hchar e.1 e.2, if_pos (by simpa using he)]
  · have hmem : cycleBottleneck M c ∈ (cycleEdges c).map fun e => getEntry M e.1 e.2 :=
      listMin_mem _ (by simpa using hedges_ne)
    obtain ⟨e, he, heq⟩ := List.mem_map.mp hmem
    refine ⟨e, he, heq, ?_⟩
    rw [hchar e.1 e.2, if_pos (by simpa using he), heq]
    ring
  · intro e he
    rw [hchar e.1 e.2, if_pos (by simpa using he)]
    have := hmin_le e he
    omega
  · intro i j _ _ hnot
    rw [hchar i j, if_neg hnot]
    ring

/-- Witness for C3 at the documented 4-node example: the cycle
`David -> Pedro -> Pilar -> Andrea`, i.e. index cycle `[3, 0, 1, 2]`, with
bottleneck 10. -/
theorem C3_witness :
    (∀ e ∈ cycleEdges [3, 0, 1, 2],
        getEntry (applyCycleSettlement
            [[0, 10, 0, 0], [0, 0, 20, 0], [0, 0, 0, 30], [40, 0, 0, 0]] [3, 0, 1, 2]) e.1 e.2
          = getEntry [[0, 10, 0, 0], [0, 0, 20, 0], [0, 0, 0, 30], [40, 0, 0, 0]] e.1 e.2
            - cycleBottleneck
                [[0, 10, 0, 0], [0, 0, 20, 0], [0, 0, 0, 30], [40, 0, 0, 0]] [3, 0, 1, 2]) ∧
    (∃ e ∈ cycleEdges [3, 0, 1, 2],
        getEntry [[0, 10, 0, 0], [0, 0, 20, 0], [0, 0, 0, 30], [40, 0, 0, 0]] e.1 e.2
          = cycleBottleneck
              [[0, 10, 0, 0], [0, 0, 20, 0], [0, 0, 0, 30], [40, 0, 0, 0]] [3, 0, 1, 2] ∧
        getEntry (applyCycleSettlement
            [[0, 10, 0, 0], [0, 0, 20, 0], [0, 0, 0, 30], [40, 0, 0, 0]] [3, 0, 1, 2]) e.1 e.2
          = 0) := by
  have h := C3_apply_cycle_settlement
    [[0, 10, 0, 0], [0, 0, 20, 0], [0, 0, 0, 30], [40, 0, 0, 0]] 4 [3, 0, 1, 2]
    ⟨rfl, by decide⟩ (by decide) (by decide) (by decide) (by decide)
  exact ⟨h.1, h.2.1⟩

/-! ## C6: the BEBDiM merge -/

theorem getEntry_grid (n : Nat) (f : Nat → Nat → Int) (i j : Nat)
    (hi : i < n) (hj : j < n) :
    getEntry ((List.range n).map fun i => (List.range n).map fun j => f i j) i j
      = f i j := by
  rw [getEntry]
  have h1 : ((List.range n).map fun i => (List.range n).map fun j => f i j).getD i []
      = (List.range n).map fun j => f i j := by
    rw [List.getD_eq_getElem?_getD, List.getElem?_eq_getElem (by simpa using hi)]
    simp
  rw [h1, getD_of_lt _ _ _ (by simpa using hj)]
  simp

/-- C6 (counterexample): for `A` of size 0 the bridge write `D[0, 0] = 1`
overwrites the `B` block, so `D[a:, a:] = B` fails; and for `B` of size 0
the bridge write is out of bounds and the merge raises instead of building
`D`. -/
theorem C6_counterexample :
    strictMerge ([] : List (List Int)) [[0]] = some [[1]] ∧
    getEntry [[1]] 0 0 ≠ getEntry [[0]] 0 0 ∧
    strictMerge [[5]] ([] : List (List Int)) = none := by
  refine ⟨by decide, by decide, by decide⟩

/-- C6 (amended): for square `A` (size `a ≥ 1`) and `B` (size `b ≥ 1`) the
merge succeeds and builds `D` of size `a+b` with `D[0:a,0:a] = A`,
`D[a:a+b,a:a+b] = B`, `D[0,a] = 1` and every other entry 0; the merged name
list keeps `A`'s names at their indices, reindexes `B`'s names by adding the
offset `a`, and has `a + b` entries. -/
theorem C6_strict_merge (A B : List (List Int)) (a b : Nat) (na nb : List String)
    (hA : Square A a) (hB : Square B b) (hna : na.length = a) (hnb : nb.length = b)
    (ha : 1 ≤ a) (hb : 1 ≤ b) :
    ∃ D, strictMerge A B = some D ∧
      Square D (a + b) ∧
      (∀ i j, i < a → j < a → getEntry D i j = getEntry A i j) ∧
      (∀ i j, i < b → j < b → getEntry D (a + i) (a + j) = getEntry B i j) ∧
      getEntry D 0 a = 1 ∧
      (∀ i j, i < a + b → j < a + b → ¬(i < a ∧ j < a) → ¬(a ≤ i ∧ a ≤ j) →
        ¬(i = 0 ∧ j = a) → getEntry D i j = 0) ∧
      (mergeNodeNames na nb).length = a + b ∧
      (∀ i, i < a → (mergeNodeNames na nb).getD i "" = na.getD i "") ∧
      (∀ j, j < b → (mergeNodeNames na nb).getD (a + j) "" = nb.getD j "") := by
  obtain ⟨hAlen, _⟩ := hA
  obtain ⟨hBlen, _⟩ := hB
  subst hAlen
  subst hBlen
  have hbne : ¬ B.length = 0 := by omega
  refine ⟨_, by rw [strictMerge]; exact if_neg hbne, ?_, ?_, ?_, ?_, ?_, ?_, ?_, ?_⟩
  · constructor
    · simp
    · intro r hr
      simp only [List.mem_map, List.mem_range] at hr
      obtain ⟨i, _, rfl⟩ := hr
      simp
  · intro i j hi hj
    rw [getEntry_grid (A.length + B.length) _ i j (by omega) (by omega)]
    rw [if_neg (by omega), if_neg (by omega), if_pos ⟨hi, hj⟩]
  · intro i j hi hj
    rw [getEntry_grid (A.length + B.length) _ (A.length + i) (A.length + j)
      (by omega) (by omega)]
    rw [if_neg (by omega), if_pos ⟨by omega, by omega⟩]
    congr 1 <;> omega
  · rw [getEntry_grid (A.length + B.length) _ 0 A.length (by omega) (by omega)]
    rw [if_pos ⟨rfl, rfl⟩]
  · intro i j hi hj h1 h2 h3
    rw [getEntry_grid (A.length + B.length) _ i j (by omega) (by omega)]
    rw [if_neg (by tauto), if_neg (by tauto), if_neg (by tauto)]
  · simp [mergeNodeNames, hna, hnb]
  · intro i hi
    rw [mergeNodeNames, List.getD_eq_getElem?_getD,
      List.getElem?_append_left (by omega), ← List.getD_eq_getElem?_getD]
  · intro j hj
    rw [mergeNodeNames, List.getD_eq_getElem?_getD,
      List.getElem?_append_right (by omega), ← List.getD_eq_getElem?_getD]
    congr 1
    omega

/-- Witness for C6 at the documented `networkconnect.py` example:
`A = [[1,2],[3,4]]`, `B = [[5,6,7],[8,9,10],[11,12,13]]`. -/
theorem C6_witness :
    ∃ D, strictMerge [[1, 2], [3, 4]] [[5, 6, 7], [8, 9, 10], [11, 12, 13]] = some D ∧
      Square D (2 + 3) ∧
      (∀ i j, i < 2 → j < 2 →
        getEntry D i j = getEntry [[1, 2], [3, 4]] i j) ∧
      (∀ i j, i < 3 → j < 3 →
        getEntry D (2 + i) (2 + j) = getEntry [[5, 6, 7], [8, 9, 10], [11, 12, 13]] i j) ∧
      getEntry D 0 2 = 1 := by
  obtain ⟨D, h1, h2, h3, h4, h5, _⟩ := C6_strict_merge
    [[1, 2], [3, 4]] [[5, 6, 7], [8, 9, 10], [11, 12, 13]] 2 3
    ["Pedro", "Juan"] ["Lucas", "Sofia", "Lourdes"]
    ⟨rfl, by decide⟩ ⟨rfl, by decide⟩ rfl rfl (by omega) (by omega)
  exact ⟨D, h1, h2, h3, h4, h5⟩

/-! ## C8: serialization round trip -/

theorem charDigit_digitChar (d : Nat) (h : d < 10) : charDigit (digitChar d) = some d := by
  interval_cases d <;> rfl

theorem natDigitsRev_ne_nil (n : Nat) : natDigitsRev n ≠ [] := by
  rw [natDigitsRev]
  split <;> simp

theorem parseDigitsAux_append (l1 l2 : List Char) (acc : Nat) :
    parseDigitsAux (l1 ++ l2) acc
      = match parseDigitsAux l1 acc with
        | some m => parseDigitsAux l2 m
        | none => none := by
  induction l1 generalizing acc with
  | nil => simp [parseDigitsAux]
  | cons c cs ih =>
      cases h : charDigit c with
      | some d => simp [parseDigitsAux, h, ih]
      | none => simp [parseDigitsAux, h]

theorem parse_natDigitsRev (n : Nat) : ∀ acc : Nat,
    parseDigitsAux ((natDigitsRev n).reverse.map digitChar) acc
      = some (acc * 10 ^ (natDigitsRev n).length + n) := by
  induction n using Nat.strong_induction_on with
  | _ n ih =>
      intro acc
      rw [natDigitsRev]
      by_cases h : n < 10
      · rw [dif_pos h]
        simp [parseDigitsAux, charDigit_digitChar n h]
      · rw [dif_neg h]
        have hdiv : n / 10 < n := Nat.div_lt_self (by omega) (by omega)
        have hmod : n % 10 < 10 := Nat.mod_lt _ (by omega)
        rw [List.reverse_cons, List.map_append, parseDigitsAux_append, ih (n / 10) hdiv acc]
        simp only [List.map_cons, List.map_nil, parseDigitsAux,
          charDigit_digitChar (n % 10) hmod]
        rw [List.length_cons]
        congr 1
        have hnm : 10 * (n / 10) + n % 10 = n := Nat.div_add_mod n 10
        ring_nf
        omega

theorem parseNat_natToDigitString (n : Nat) : parseNat (natToDigitString n) = some n := by
  have hdata : (natToDigitString n).data = (natDigitsRev n).reverse.map digitChar := rfl
  have hne : (natDigitsRev n).reverse.map digitChar ≠ [] := by
    simp [natDigitsRev_ne_nil n]
  rw [parseNat, hdata, if_neg hne, parse_natDigitsRev n 0]
  simp

theorem decodeRow_encode (row : List Int) :
    decodeRow (.arr (row.map Json.num)) = some row := by
  rw [decodeRow]
  induction row with
  | nil => rfl
  | cons x xs ih => simp [mapOption, jsonToInt, ih]

theorem decodeMatrixRows_encode (matrix : List (List Int)) :
    decodeMatrixRows (matrix.map fun row => .arr (row.map Json.num)) = some matrix := by
  induction matrix with
  | nil => rfl
  | cons r rs ih =>
      rw [decodeMatrixRows, List.map_cons, mapOption, decodeRow_encode]
      rw [decodeMatrixRows] at ih
      rw [ih]

theorem decodeNames_encode (names : List (Nat × String)) :
    mapOption
      (fun kv : String × Json => (parseNat kv.1).map fun i => (i, jsonToStr kv.2))
      (names.map fun p => (natToDigitString p.1, Json.str p.2)) = some names := by
  induction names with
  | nil => rfl
  | cons p ps ih =>
      simp only [List.map_cons, mapOption, parseNat_natToDigitString, Option.map_some, ih]
      rfl

/-- C8: decoding (`decode_adjacency_code`) the serialized
`{"nodes": ..., "matrix": ...}` object produced by `encode_adjacency_matrix`
reproduces an identical matrix and an identical index-to-name mapping. -/
theorem C8_round_trip (matrix : List (List Int)) (names : List (Nat × String)) :
    decodeAdjacencyCode (encodeAdjacencyMatrix matrix names) = some (matrix, names) := by
  simp [encodeAdjacencyMatrix, decodeAdjacencyCode, lookupField,
    decodeMatrixRows_encode, decodeNames_encode]

/-! ## C9: ranking tie-breaks -/

theorem buildNameDict_eq_map (names : Nat → String) (value : Nat → Int) (n : Nat)
    (hinj : ∀ i j, i < n → j < n → names i = names j → i = j) :
    buildNameDict names value n = (List.range n).map fun i => (names i, value i) := by
  induction n with
  | zero => rfl
  | succ m ih =>
      have hinj2 : ∀ i j, i < m → j < m → names i = names j → i = j :=
        fun i j hi hj h => hinj i j (by omega) (by omega) h
      have hstep : buildNameDict names value (m + 1)
          = dictInsert (buildNameDict names value m) (names m) (value m) := by
        rw [buildNameDict, buildNameDict, List.range_succ, List.foldl_append]
        rfl
      rw [hstep, ih hinj2, dictInsert, if_neg, List.range_succ, List.map_append]
      · rfl
      · simp only [List.any_eq_true, not_exists, not_and, List.mem_map, List.mem_range]
        rintro p ⟨i, hi, rfl⟩
        simp only [beq_iff_eq]
        intro h
        have := hinj i m (by omega) (by omega) h
        omega

theorem pyFoldMax_spec (l : List (String × Int)) (acc : String × Int) :
    (l.foldl (fun acc y => if acc.2 < y.2 then y else acc) acc = acc ∧
      ∀ x ∈ l, x.2 ≤ acc.2)
    ∨ (∃ k, ∃ h : k < l.length,
        l.foldl (fun acc y => if acc.2 < y.2 then y else acc) acc = l.get ⟨k, h⟩ ∧
        acc.2 < (l.get ⟨k, h⟩).2 ∧
        (∀ x ∈ l, x.2 ≤ (l.get ⟨k, h⟩).2) ∧
        (∀ j, ∀ hj : j < l.length, j < k → (l.get ⟨j, hj⟩).2 < (l.get ⟨k, h⟩).2)) := by
  induction l generalizing acc with
  | nil => exact Or.inl ⟨rfl, by simp⟩
  | cons y ys ih =>
      by_cases hy : acc.2 < y.2
      · have hfold : (y :: ys).foldl (fun acc y => if acc.2 < y.2 then y else acc) acc
            = ys.foldl (fun acc y => if acc.2 < y.2 then y else acc) y := by
          simp [List.foldl_cons, hy]
        rcases ih y with ⟨heq, hall⟩ | ⟨k, h, heq, hacc, hall, hfirst⟩
        · refine Or.inr ⟨0, by simp, ?_, ?_, ?_, ?_⟩
          · rw [hfold, heq]
            rfl
          · exact hy
          · intro x hx
            rcases List.mem_cons.mp hx with rfl | hx2
            · exact le_refl _
            · exact hall x hx2
          · intro j hj hj0
            omega
        · refine Or.inr ⟨k + 1, by simpa using h, ?_, ?_, ?_, ?_⟩
          · rw [hfold, heq]
            rfl
          · exact lt_trans hy hacc
          · intro x hx
            rcases List.mem_cons.mp hx with rfl | hx2
            · exact le_of_lt hacc
            · exact hall x hx2
          · intro j hj hjk
            match j, hj, hjk with
            | 0, _, _ => exact hacc
            | j2 + 1, hj, hjk => exact hfirst j2 (by simpa using hj) (by omega)
      · have hfold : (y :: ys).foldl (fun acc y => if acc.2 < y.2 then y else acc) acc
            = ys.foldl (fun acc y => if acc.2 < y.2 then y else acc) acc := by
          simp [List.foldl_cons, hy]
        rcases ih acc with ⟨heq, hall⟩ | ⟨k, h, heq, hacc, hall, hfirst⟩
        · refine Or.inl ⟨by rw [hfold, heq], ?_⟩
          intro x hx
          rcases List.mem_cons.mp hx with rfl | hx2
          · omega
          · exact hall x hx2
        · refine Or.inr ⟨k + 1, by simpa using h, ?_, ?_, ?_, ?_⟩
          · rw [hfold, heq]
            rfl
          · exact hacc
          · intro x hx
            rcases List.mem_cons.mp hx with rfl | hx2
            · exact le_of_lt (lt_of_le_of_lt (le_of_not_lt hy) hacc)
            · exact hall x hx2
          · intro j hj hjk
            match j, hj, hjk with
            | 0, _, _ => exact lt_of_le_of_lt (le_of_not_lt hy) hacc
            | j2 + 1, hj, hjk => exact hfirst j2 (by simpa using hj) (by omega)

theorem pyFoldMin_spec (l : List (String × Int)) (acc : String × Int) :
    (l.foldl (fun acc y => if y.2 < acc.2 then y else acc) acc = acc ∧
      ∀ x ∈ l, acc.2 ≤ x.2)
    ∨ (∃ k, ∃ h : k < l.length,
        l.foldl (fun acc y => if y.2 < acc.2 then y else acc) acc = l.get ⟨k, h⟩ ∧
        (l.get ⟨k, h⟩).2 < acc.2 ∧
        (∀ x ∈ l, (l.get ⟨k, h⟩).2 ≤ x.2) ∧
        (∀ j, ∀ hj : j < l.length, j < k → (l.get ⟨k, h⟩).2 < (l.get ⟨j, hj⟩).2)) := by
  induction l generalizing acc with
  | nil => exact Or.inl ⟨rfl, by simp⟩
  | cons y ys ih =>
      by_cases hy : y.2 < acc.2
      · have hfold : (y :: ys).foldl (fun acc y => if y.2 < acc.2 then y else acc) acc
            = ys.foldl (fun acc y => if y.2 < acc.2 then y else acc) y := by
          simp [List.foldl_cons, hy]
        rcases ih y with ⟨heq, hall⟩ | ⟨k, h, heq, hacc, hall, hfirst⟩
        · refine Or.inr ⟨0, by simp, ?_, ?_, ?_, ?_⟩
          · rw [hfold, heq]
            rfl
          · exact hy
          · intro x hx
            rcases List.mem_cons.mp hx with rfl | hx2
            · exact le_refl _
            · exact hall x hx2
          · intro j hj hj0
            omega
        · refine Or.inr ⟨k + 1, by simpa using h, ?_, ?_, ?_, ?_⟩
          · rw [hfold, heq]
            rfl
          · exact lt_trans hacc hy
          · intro x hx
            rcases List.mem_cons.mp hx with rfl | hx2
            · exact le_of_lt hacc
            · exact hall x hx2
          · intro j hj hjk
            match j, hj, hjk with
            | 0, _, _ => exact hacc
            | j2 + 1, hj, hjk => exact hfirst j2 (by simpa using hj) (by omega)
      · have hfold : (y :: ys).foldl (fun acc y => if y.2 < acc.2 then y else acc) acc
            = ys.foldl (fun acc y => if y.2 < acc.2 then y else acc) acc := by
          simp [List.foldl_cons, hy]
        rcases ih acc with ⟨heq, hall⟩ | ⟨k, h, heq, hacc, hall, hfirst⟩
        · refine Or.inl ⟨by rw [hfold, heq], ?_⟩
          intro x hx
          rcases List.mem_cons.mp hx with rfl | hx2
          · omega
          · exact hall x hx2
        · refine Or.inr ⟨k + 1, by simpa using h, ?_, ?_, ?_, ?_⟩
          · rw [hfold, heq]
            rfl
          · exact hacc
          · intro x hx
            rcases List.mem_cons.mp hx with rfl | hx2
            · exact le_of_lt (lt_of_lt_of_le hacc (le_of_not_lt hy))
            · exact hall x hx2
          · intro j hj hjk
            match j, hj, hjk with
            | 0, _, _ => exact lt_of_lt_of_le hacc (le_of_not_lt hy)
            | j2 + 1, hj, hjk => exact hfirst j2 (by simpa using hj) (by omega)

theorem pyMaxBySnd_range_spec (f : Nat → String) (v : Nat → Int) (n : Nat) (hn : 1 ≤ n) :
    ∃ i, i < n ∧ pyMaxBySnd ((List.range n).map fun i => (f i, v i)) = some (f i, v i) ∧
      (∀ j, j < n → v j ≤ v i) ∧ (∀ j, j < n → v j = v i → i ≤ j) := by
  obtain ⟨m, rfl⟩ : ∃ m, n = m + 1 := ⟨n - 1, by omega⟩
  have hsplit : (List.range (m + 1)).map (fun i => (f i, v i))
      = (f 0, v 0) :: (List.range m).map fun i => (f (i + 1), v (i + 1)) := by
    rw [List.range_succ_eq_map, List.map_cons, List.map_map]
    rfl
  have htl_len : ((List.range m).map fun i => (f (i + 1), v (i + 1))).length = m := by simp
  have htl_get : ∀ (k : Nat) (h : k < ((List.range m).map
      fun i => (f (i + 1), v (i + 1))).length),
      ((List.range m).map fun i => (f (i + 1), v (i + 1))).get ⟨k, h⟩
        = (f (k + 1), v (k + 1)) := by
    intro k h
    simp
  have htl_mem : ∀ j, j < m →
      (f (j + 1), v (j + 1)) ∈ (List.range m).map fun i => (f (i + 1), v (i + 1)) := by
    intro j hj
    exact List.mem_map_of_mem _ (List.mem_range.mpr hj)
  rw [hsplit, pyMaxBySnd]
  rcases pyFoldMax_spec ((List.range m).map fun i => (f (i + 1), v (i + 1))) (f 0, v 0)
    with ⟨heq, hall⟩ | ⟨k, h, heq, hacc, hall, hfirst⟩
  · refine ⟨0, by omega, ?_, ?_, ?_⟩
    · rw [heq]
    · intro j hj
      match j with
      | 0 => exact le_refl _
      | j2 + 1 => exact hall _ (htl_mem j2 (by omega))
    · intro j _ _
      omega
  · have hk : k < m := by omega
    refine ⟨k + 1, by omega, ?_, ?_, ?_⟩
    · rw [heq, htl_get k h]
    · intro j hj
      match j with
      | 0 =>
          have := hacc
          rw [htl_get k h] at this
          exact le_of_lt this
      | j2 + 1 =>
          have := hall _ (htl_mem j2 (by omega))
          rw [htl_get k h] at this
          exact this
    · intro j hj hveq
      match j with
      | 0 =>
          have := hacc
          rw [htl_get k h] at this
          omega
      | j2 + 1 =>
          by_cases hj2k : j2 < k
          · have := hfirst j2 (by omega) hj2k
            rw [htl_get k h, htl_get j2 (by omega)] at this
            omega
          · omega

theorem pyMinBySnd_range_spec (f : Nat → String) (v : Nat → Int) (n : Nat) (hn : 1 ≤ n) :
    ∃ i, i < n ∧ pyMinBySnd ((List.range n).map fun i => (f i, v i)) = some (f i, v i) ∧
      (∀ j, j < n → v i ≤ v j) ∧ (∀ j, j < n → v j = v i → i ≤ j) := by
  obtain ⟨m, rfl⟩ : ∃ m, n = m + 1 := ⟨n - 1, by omega⟩
  have hsplit : (List.range (m + 1)).map (fun i => (f i, v i))
      = (f 0, v 0) :: (List.range m).map fun i => (f (i + 1), v (i + 1)) := by
    rw [List.range_succ_eq_map, List.map_cons, List.map_map]
    rfl
  have htl_get : ∀ (k : Nat) (h : k < ((List.range m).map
      fun i => (f (i + 1), v (i + 1))).length),
      ((List.range m).map fun i => (f (i + 1), v (i + 1))).get ⟨k, h⟩
        = (f (k + 1), v (k + 1)) := by
    intro k h
    simp
  have htl_mem : ∀ j, j < m →
      (f (j + 1), v (j + 1)) ∈ (List.range m).map fun i => (f (i + 1), v (i + 1)) := by
    intro j hj
    exact List.mem_map_of_mem _ (List.mem_range.mpr hj)
  rw [hsplit, pyMinBySnd]
  rcases pyFoldMin_spec ((List.range m).map fun i => (f (i + 1), v (i + 1))) (f 0, v 0)
    with ⟨heq, hall⟩ | ⟨k, h, heq, hacc, hall, hfirst⟩
  · refine ⟨0, by omega, ?_, ?_, ?_⟩
    · rw [heq]
    · intro j hj
      match j with
      | 0 => exact le_refl _
      | j2 + 1 => exact hall _ (htl_mem j2 (by omega))
    · intro j _ _
      omega
  · have hk : k < m := by simpa using h
    refine ⟨k + 1, by omega, ?_, ?_, ?_⟩
    · rw [heq, htl_get k h]
    · intro j hj
      match j with
      | 0 =>
          have := hacc
          rw [htl_get k h] at this
          exact le_of_lt this
      | j2 + 1 =>
          have := hall _ (htl_mem j2 (by omega))
          rw [htl_get k h] at this
          exact this
    · intro j hj hveq
      match j with
      | 0 =>
          have := hacc
          rw [htl_get k h] at this
          omega
      | j2 + 1 =>
          by_cases hj2k : j2 < k
          · have := hfirst j2 (by omega) hj2k
            rw [htl_get k h, htl_get j2 (by omega)] at this
            omega
          · omega

/-- C9 (counterexample): with duplicate display names the name-keyed dicts
overwrite earlier nodes, so a ranking can miss the extremal node entirely.
Nodes 0 and 1 are both named "X", node 2 is "Y"; node 0 has the maximal
owed-to value 100, but `most_owed` reports `("Y", 50)`. -/
theorem C9_counterexample :
    mostOwedTo [[0, 0, 0], [0, 0, 50], [100, 0, 0]]
        (fun i => if i = 2 then "Y" else "X") 3 = some ("Y", 50) ∧
    colSum [[0, 0, 0], [0, 0, 50], [100, 0, 0]] 3 0 = 100 ∧
    (fun i : Nat => if i = 2 then "Y" else "X") 0 = "X" ∧
    ((50 : Int) < 100) := by
  refine ⟨by decide, by decide, rfl, by decide⟩

/-- C9 (amended): when the display names of the nodes are pairwise distinct
(and there is at least one node), each of the four rankings — most owed to
(max `owed_to`), owes the most (max `owed_by`), top creditor (max
`net_balance`), top debtor (min `net_balance`) — selects, among all nodes
sharing the extremal value, the node with the smallest index. -/
theorem C9_smallest_index_tie_break (M : List (List Int)) (n : Nat)
    (names : Nat → String) (_hsq : Square M n) (_hnn : NonNegMatrix M)
    (hinj : ∀ i, i < n → ∀ j, j < n → names i = names j → i = j) (hn : 1 ≤ n) :
    (∃ i, i < n ∧ mostOwedTo M names n = some (names i, colSum M n i) ∧
      (∀ j, j < n → colSum M n j ≤ colSum M n i) ∧
      (∀ j, j < n → colSum M n j = colSum M n i → i ≤ j)) ∧
    (∃ i, i < n ∧ owesTheMost M names n = some (names i, rowSum M i) ∧
      (∀ j, j < n → rowSum M j ≤ rowSum M i) ∧
      (∀ j, j < n → rowSum M j = rowSum M i → i ≤ j)) ∧
    (∃ i, i < n ∧ topCreditor M names n = some (names i, netBalance M n i) ∧
      (∀ j, j < n → netBalance M n j ≤ netBalance M n i) ∧
      (∀ j, j < n → netBalance M n j = netBalance M n i → i ≤ j)) ∧
    (∃ i, i < n ∧ topDebtor M names n = some (names i, netBalance M n i) ∧
      (∀ j, j < n → netBalance M n i ≤ netBalance M n j) ∧
      (∀ j, j < n → netBalance M n j = netBalance M n i → i ≤ j)) := by
  have hinj2 : ∀ i j, i < n → j < n → names i = names j → i = j :=
    fun i j hi hj h => hinj i hi j hj h
  refine ⟨?_, ?_, ?_, ?_⟩
  · rw [mostOwedTo, owedToDict, buildNameDict_eq_map names _ n hinj2]
    exact pyMaxBySnd_range_spec names _ n hn
  · rw [owesTheMost, owedByDict, buildNameDict_eq_map names _ n hinj2]
    exact pyMaxBySnd_range_spec names _ n hn
  · rw [topCreditor, netBalanceDict, buildNameDict_eq_map names _ n hinj2]
    exact pyMaxBySnd_range_spec names _ n hn
  · rw [topDebtor, netBalanceDict, buildNameDict_eq_map names _ n hinj2]
    exact pyMinBySnd_range_spec names _ n hn

/-- Witness for C9 at the 4-node worked example with distinct names. -/
theorem C9_witness :
    (∃ i, i < 4 ∧ mostOwedTo [[0, 10, 0, 0], [0, 0, 20, 0], [0, 0, 0, 30], [40, 0, 0, 0]]
        (fun i => if i = 0 then "Pedro" else if i = 1 then "Pilar"
          else if i = 2 then "Andrea" else "David") 4
        = some ((fun i : Nat => if i = 0 then "Pedro" else if i = 1 then "Pilar"
          else if i = 2 then "Andrea" else "David") i,
          colSum [[0, 10, 0, 0], [0, 0, 20, 0], [0, 0, 0, 30], [40, 0, 0, 0]] 4 i) ∧
      (∀ j, j < 4 → colSum [[0, 10, 0, 0], [0, 0, 20, 0], [0, 0, 0, 30], [40, 0, 0, 0]] 4 j
        ≤ colSum [[0, 10, 0, 0], [0, 0, 20, 0], [0, 0, 0, 30], [40, 0, 0, 0]] 4 i) ∧
      (∀ j, j < 4 → colSum [[0, 10, 0, 0], [0, 0, 20, 0], [0, 0, 0, 30], [40, 0, 0, 0]] 4 j
        = colSum [[0, 10, 0, 0], [0, 0, 20, 0], [0, 0, 0, 30], [40, 0, 0, 0]] 4 i → i ≤ j)) := by
  have h := C9_smallest_index_tie_break
    [[0, 10, 0, 0], [0, 0, 20, 0], [0, 0, 0, 30], [40, 0, 0, 0]] 4
    (fun i => if i = 0 then "Pedro" else if i = 1 then "Pilar"
      else if i = 2 then "Andrea" else "David")
    ⟨rfl, by decide⟩
    (show ∀ r ∈ [[(0:Int), 10, 0, 0], [0, 0, 20, 0], [0, 0, 0, 30], [40, 0, 0, 0]],
      ∀ x ∈ r, 0 ≤ x by decide)
    (by decide) (by omega)
  exact h.1

/-! ## C7: the two-hop discovery never finds a cycle -/

/-- C7 (code bug): `dijkstra_igraph_to_target` returns `None` (it only
prints), so `find_debt_cycle_shortest_back` reports "no path" whenever the
direct edge exists — even on `[[0,10],[5,0]]` with start 0 and second 1,
where the edge `1 → 0` of weight 5 gives a path from B back to A.  In
general the function can never return a cycle. -/
theorem C7_always_no_path :
    0 < getEntry [[0, 10], [5, 0]] 0 1 ∧
    0 < getEntry [[0, 10], [5, 0]] 1 0 ∧
    findDebtCycleShortestBack [[0, 10], [5, 0]] 0 1 = .noPath ∧
    (∀ (M : List (List Int)) (u v : Nat), ∀ c,
      findDebtCycleShortestBack M u v ≠ .foundCycle c) := by
  refine ⟨by decide, by decide, by decide, ?_⟩
  intro M u v c
  rw [findDebtCycleShortestBack]
  by_cases h : getEntry M u v ≤ 0
  · rw [if_pos h]
    exact fun hc => CycleSearchResult.noConfusion hc
  · rw [if_neg h]
    exact fun hc => CycleSearchResult.noConfusion hc

/-! ## C4: net-balance settlement -/

theorem settleAux_cons (dN : Nat) (d : Int) (ds : List (Nat × Int)) (cN : Nat) (c : Int)
    (cs : List (Nat × Int)) :
    settleAux ((dN, d) :: ds) ((cN, c) :: cs)
      = if d + min (-d) c = 0 then
          if c - min (-d) c = 0 then (dN, cN, min (-d) c) :: settleAux ds cs
          else (dN, cN, min (-d) c) :: settleAux ds ((cN, c - min (-d) c) :: cs)
        else (dN, cN, min (-d) c) :: settleAux ((dN, d + min (-d) c) :: ds) cs := by
  rw [settleAux]

theorem settleAux_length (ds cs : List (Nat × Int)) :
    (settleAux ds cs).length ≤ ds.length + cs.length - 1 := by
  induction ds, cs using settleAux.induct with
  | case1 cs => simp [settleAux]
  | case2 ds => simp [settleAux]
  | case3 dN d ds cN c cs p h1 h2 ih =>
      have h1b : d + min (-d) c = 0 := h1
      have h2b : c - min (-d) c = 0 := h2
      rw [settleAux_cons, if_pos h1b, if_pos h2b]
      simp only [List.length_cons]
      omega
  | case4 dN d ds cN c cs p h1 h2 ih =>
      have h1b : d + min (-d) c = 0 := h1
      have h2b : ¬ (c - min (-d) c = 0) := h2
      have ihb : (settleAux ds ((cN, c - min (-d) c) :: cs)).length
          ≤ ds.length + ((cN, c - min (-d) c) :: cs).length - 1 := ih
      rw [settleAux_cons, if_pos h1b, if_neg h2b]
      simp only [List.length_cons] at ihb ⊢
      omega
  | case5 dN d ds cN c cs p h1 ih =>
      have h1b : ¬ (d + min (-d) c = 0) := h1
      have ihb : (settleAux ((dN, d + min (-d) c) :: ds) cs).length
          ≤ ((dN, d + min (-d) c) :: ds).length + cs.length - 1 := ih
      rw [settleAux_cons, if_neg h1b]
      simp only [List.length_cons] at ihb ⊢
      omega

theorem settleAux_pos (ds cs : List (Nat × Int)) :
    (∀ q ∈ ds, q.2 < 0) → (∀ q ∈ cs, 0 < q.2) → ∀ t ∈ settleAux ds cs, 0 < t.2.2 := by
  induction ds, cs using settleAux.induct with
  | case1 cs =>
      intro _ _ t ht
      simp [settleAux] at ht
  | case2 ds =>
      intro _ _ t ht
      simp [settleAux] at ht
  | case3 dN d ds cN c cs p h1 h2 ih =>
      intro hd hc t ht
      have h1b : d + min (-d) c = 0 := h1
      have h2b : c - min (-d) c = 0 := h2
      rw [settleAux_cons, if_pos h1b, if_pos h2b] at ht
      have hd0 : d < 0 := hd _ (List.mem_cons_self _ _)
      have hc0 : 0 < c := hc _ (List.mem_cons_self _ _)
      rcases List.mem_cons.mp ht with rfl | ht2
      · simp only [lt_min_iff]
        omega
      · exact ih (fun q hq => hd q (List.mem_cons_of_mem _ hq))
          (fun q hq => hc q (List.mem_cons_of_mem _ hq)) t ht2
  | case4 dN d ds cN c cs p h1 h2 ih =>
      intro hd hc t ht
      have h1b : d + min (-d) c = 0 := h1
      have h2b : ¬ (c - min (-d) c = 0) := h2
      rw [settleAux_cons, if_pos h1b, if_neg h2b] at ht
      have hd0 : d < 0 := hd _ (List.mem_cons_self _ _)
      have hc0 : 0 < c := hc _ (List.mem_cons_self _ _)
      have hminr := min_le_right (-d) c
      rcases List.mem_cons.mp ht with rfl | ht2
      · simp only [lt_min_iff]
        omega
      · refine ih (fun q hq => hd q (List.mem_cons_of_mem _ hq)) ?_ t ht2
        intro q hq
        rcases List.mem_cons.mp hq with rfl | hq2
        · simp only
          omega
        · exact hc q (List.mem_cons_of_mem _ hq2)
  | case5 dN d ds cN c cs p h1 ih =>
      intro hd hc t ht
      have h1b : ¬ (d + min (-d) c = 0) := h1
      rw [settleAux_cons, if_neg h1b] at ht
      have hd0 : d < 0 := hd _ (List.mem_cons_self _ _)
      have hc0 : 0 < c := hc _ (List.mem_cons_self _ _)
      have hminl := min_le_left (-d) c
      rcases List.mem_cons.mp ht with rfl | ht2
      · simp only [lt_min_iff]
        omega
      · refine ih ?_ (fun q hq => hc q (List.mem_cons_of_mem _ hq)) t ht2
        intro q hq
        rcases List.mem_cons.mp hq with rfl | hq2
        · simp only
          omega
        · exact hd q (List.mem_cons_of_mem _ hq2)

theorem paidBy_cons (a b : Nat) (w : Int) (ts : List (Nat × Nat × Int)) (x : Nat) :
    paidBy ((a, b, w) :: ts) x = (if a = x then w else 0) + paidBy ts x := by
  by_cases h : a = x <;> simp [paidBy, List.filter_cons, h]

theorem receivedBy_cons (a b : Nat) (w : Int) (ts : List (Nat × Nat × Int)) (x : Nat) :
    receivedBy ((a, b, w) :: ts) x = (if b = x then w else 0) + receivedBy ts x := by
  by_cases h : b = x <;> simp [receivedBy, List.filter_cons, h]

theorem settleAux_paid_zero (ds cs : List (Nat × Int)) :
    ∀ x, x ∉ ds.map Prod.fst → paidBy (settleAux ds cs) x = 0 := by
  induction ds, cs using settleAux.induct with
  | case1 cs =>
      intro x _
      simp [settleAux, paidBy]
  | case2 ds =>
      intro x _
      simp [settleAux, paidBy]
  | case3 dN d ds cN c cs p h1 h2 ih =>
      intro x hx
      have h1b : d + min (-d) c = 0 := h1
      have h2b : c - min (-d) c = 0 := h2
      simp only [List.map_cons, List.mem_cons, not_or] at hx
      rw [settleAux_cons, if_pos h1b, if_pos h2b, paidBy_cons,
        if_neg (fun h => hx.1 h.symm), ih x hx.2]
      ring
  | case4 dN d ds cN c cs p h1 h2 ih =>
      intro x hx
      have h1b : d + min (-d) c = 0 := h1
      have h2b : ¬ (c - min (-d) c = 0) := h2
      have ihb : ∀ y, y ∉ ds.map Prod.fst
          → paidBy (settleAux ds ((cN, c - min (-d) c) :: cs)) y = 0 := ih
      simp only [List.map_cons, List.mem_cons, not_or] at hx
      rw [settleAux_cons, if_pos h1b, if_neg h2b, paidBy_cons,
        if_neg (fun h => hx.1 h.symm), ihb x hx.2]
      ring
  | case5 dN d ds cN c cs p h1 ih =>
      intro x hx
      have h1b : ¬ (d + min (-d) c = 0) := h1
      have ihb : ∀ y, y ∉ ((dN, d + min (-d) c) :: ds).map Prod.fst
          → paidBy (settleAux ((dN, d + min (-d) c) :: ds) cs) y = 0 := ih
      simp only [List.map_cons, List.mem_cons, not_or] at hx
      rw [settleAux_cons, if_neg h1b, paidBy_cons, if_neg (fun h => hx.1 h.symm),
        ihb x (by simp only [List.map_cons, List.mem_cons, not_or]; exact hx)]
      ring

theorem settleAux_recv_zero (ds cs : List (Nat × Int)) :
    ∀ x, x ∉ cs.map Prod.fst → receivedBy (settleAux ds cs) x = 0 := by
  induction ds, cs using settleAux.induct with
  | case1 cs =>
      intro x _
      simp [settleAux, receivedBy]
  | case2 ds =>
      intro x _
      simp [settleAux, receivedBy]
  | case3 dN d ds cN c cs p h1 h2 ih =>
      intro x hx
      have h1b : d + min (-d) c = 0 := h1
      have h2b : c - min (-d) c = 0 := h2
      simp only [List.map_cons, List.mem_cons, not_or] at hx
      rw [settleAux_cons, if_pos h1b, if_pos h2b, receivedBy_cons,
        if_neg (fun h => hx.1 h.symm), ih x hx.2]
      ring
  | case4 dN d ds cN c cs p h1 h2 ih =>
      intro x hx
      have h1b : d + min (-d) c = 0 := h1
      have h2b : ¬ (c - min (-d) c = 0) := h2
      have ihb : ∀ y, y ∉ ((cN, c - min (-d) c) :: cs).map Prod.fst
          → receivedBy (settleAux ds ((cN, c - min (-d) c) :: cs)) y = 0 := ih
      simp only [List.map_cons, List.mem_cons, not_or] at hx
      rw [settleAux_cons, if_pos h1b, if_neg h2b, receivedBy_cons,
        if_neg (fun h => hx.1 h.symm),
        ihb x (by simp only [List.map_cons, List.mem_cons, not_or]; exact hx)]
      ring
  | case5 dN d ds cN c cs p h1 ih =>
      intro x hx
      have h1b : ¬ (d + min (-d) c = 0) := h1
      have ihb : ∀ y, y ∉ cs.map Prod.fst
          → receivedBy (settleAux ((dN, d + min (-d) c) :: ds) cs) y = 0 := ih
      simp only [List.map_cons, List.mem_cons, not_or] at hx
      rw [settleAux_cons, if_neg h1b, receivedBy_cons, if_neg (fun h => hx.1 h.symm),
        ihb x hx.2]
      ring

theorem list_sum_nonneg_int (l : List Int) (h : ∀ y ∈ l, 0 ≤ y) : 0 ≤ l.sum := by
  induction l with
  | nil => simp
  | cons y ys ih =>
      rw [List.sum_cons]
      have h1 := h y (List.mem_cons_self _ _)
      have h2 := ih fun z hz => h z (List.mem_cons_of_mem _ hz)
      omega

theorem list_sum_pos_int (l : List Int) (h : ∀ y ∈ l, 0 < y) (hne : l ≠ []) : 0 < l.sum := by
  match l, hne with
  | y :: ys, _ =>
      rw [List.sum_cons]
      have h1 := h y (List.mem_cons_self _ _)
      have h2 := list_sum_nonneg_int ys fun z hz => le_of_lt (h z (List.mem_cons_of_mem _ hz))
      omega

theorem list_sum_nonpos_int (l : List Int) (h : ∀ y ∈ l, y ≤ 0) : l.sum ≤ 0 := by
  induction l with
  | nil => simp
  | cons y ys ih =>
      rw [List.sum_cons]
      have h1 := h y (List.mem_cons_self _ _)
      have h2 := ih fun z hz => h z (List.mem_cons_of_mem _ hz)
      omega

theorem list_sum_neg_int (l : List Int) (h : ∀ y ∈ l, y < 0) (hne : l ≠ []) : l.sum < 0 := by
  match l, hne with
  | y :: ys, _ =>
      rw [List.sum_cons]
      have h1 := h y (List.mem_cons_self _ _)
      have h2 := list_sum_nonpos_int ys fun z hz => le_of_lt (h z (List.mem_cons_of_mem _ hz))
      omega

theorem settleAux_exact (ds cs : List (Nat × Int)) :
    (∀ q ∈ ds, q.2 < 0) → (∀ q ∈ cs, 0 < q.2) →
    (ds.map Prod.fst ++ cs.map Prod.fst).Nodup →
    (ds.map Prod.snd).sum + (cs.map Prod.snd).sum = 0 →
    (∀ k v, (k, v) ∈ ds → paidBy (settleAux ds cs) k = -v) ∧
    (∀ k v, (k, v) ∈ cs → receivedBy (settleAux ds cs) k = v) := by
  induction ds, cs using settleAux.induct with
  | case1 cs =>
      intro _ hc _ hsum
      refine ⟨fun k v hkv => by simp at hkv, fun k v hkv => ?_⟩
      exfalso
      have hpos : 0 < (cs.map Prod.snd).sum := by
        refine list_sum_pos_int _ ?_ ?_
        · intro x hx
          obtain ⟨q2, hq2, rfl⟩ := List.mem_map.mp hx
          exact hc q2 hq2
        · intro h
          rw [List.map_eq_nil_iff] at h
          subst h
          simp at hkv
      simp only [List.map_nil, List.sum_nil, zero_add] at hsum
      omega
  | case2 q0 ds =>
      intro hd _ _ hsum
      refine ⟨fun k v hkv => ?_, fun k v hkv => by simp at hkv⟩
      exfalso
      have hneg : ((q0 :: ds).map Prod.snd).sum < 0 := by
        refine list_sum_neg_int _ ?_ (by simp)
        intro x hx
        obtain ⟨q2, hq2, rfl⟩ := List.mem_map.mp hx
        exact hd q2 hq2
      simp only [List.map_nil, List.sum_nil, add_zero] at hsum
      omega
  | case3 dN d ds cN c cs p h1 h2 ih =>
      intro hd hc hnd hsum
      have h1b : d + min (-d) c = 0 := h1
      have h2b : c - min (-d) c = 0 := h2
      simp only [List.map_cons, List.cons_append] at hnd
      have hdN_notin : dN ∉ ds.map Prod.fst ++ cN :: cs.map Prod.fst :=
        (List.nodup_cons.mp hnd).1
      have hrest : (ds.map Prod.fst ++ cN :: cs.map Prod.fst).Nodup :=
        (List.nodup_cons.mp hnd).2
      have hcN_notin : cN ∉ cs.map Prod.fst := by
        have := (List.nodup_append.mp hrest).2.1
        exact (List.nodup_cons.mp this).1
      have hnd2 : (ds.map Prod.fst ++ cs.map Prod.fst).Nodup :=
        List.Nodup.sublist
          (List.Sublist.append_left (List.sublist_cons_self cN (cs.map Prod.fst)) _) hrest
      have hsum2 : (ds.map Prod.snd).sum + (cs.map Prod.snd).sum = 0 := by
        simp only [List.map_cons, List.sum_cons] at hsum
        rcases min_choice (-d) c with hm | hm <;> rw [hm] at h1b h2b <;> omega
      obtain ⟨ih1, ih2⟩ := ih (fun q hq => hd q (List.mem_cons_of_mem _ hq))
        (fun q hq => hc q (List.mem_cons_of_mem _ hq)) hnd2 hsum2
      rw [settleAux_cons, if_pos h1b, if_pos h2b]
      constructor
      · intro k v hkv
        rcases List.mem_cons.mp hkv with heq | hq2
        · simp only [Prod.mk.injEq] at heq
          obtain ⟨rfl, rfl⟩ := heq
          rw [paidBy_cons, if_pos rfl,
            settleAux_paid_zero ds cs k
              (fun hmem => hdN_notin (List.mem_append_left _ hmem))]
          omega
        · have hq1 : k ∈ ds.map Prod.fst := List.mem_map_of_mem Prod.fst hq2
          rw [paidBy_cons,
            if_neg (fun h => hdN_notin (List.mem_append_left _ (by rw [h]; exact hq1))),
            ih1 k v hq2]
          ring
      · intro k v hkv
        rcases List.mem_cons.mp hkv with heq | hq2
        · simp only [Prod.mk.injEq] at heq
          obtain ⟨rfl, rfl⟩ := heq
          rw [receivedBy_cons, if_pos rfl, settleAux_recv_zero ds cs k hcN_notin]
          omega
        · have hq1 : k ∈ cs.map Prod.fst := List.mem_map_of_mem Prod.fst hq2
          rw [receivedBy_cons, if_neg (fun h => hcN_notin (by rw [h]; exact hq1)),
            ih2 k v hq2]
          ring
  | case4 dN d ds cN c cs p h1 h2 ih =>
      intro hd hc hnd hsum
      have h1b : d + min (-d) c = 0 := h1
      have h2b : ¬ (c - min (-d) c = 0) := h2
      have hminr := min_le_right (-d) c
      simp only [List.map_cons, List.cons_append] at hnd
      have hdN_notin : dN ∉ ds.map Prod.fst ++ cN :: cs.map Prod.fst :=
        (List.nodup_cons.mp hnd).1
      have hrest : (ds.map Prod.fst ++ cN :: cs.map Prod.fst).Nodup :=
        (List.nodup_cons.mp hnd).2
      have hcN_notin : cN ∉ cs.map Prod.fst := by
        have := (List.nodup_append.mp hrest).2.1
        exact (List.nodup_cons.mp this).1
      have ihb : (∀ q ∈ ds, q.2 < 0) →
          (∀ q ∈ (cN, c - min (-d) c) :: cs, 0 < q.2) →
          (ds.map Prod.fst ++ ((cN, c - min (-d) c) :: cs).map Prod.fst).Nodup →
          ((ds.map Prod.snd).sum + (((cN, c - min (-d) c) :: cs).map Prod.snd).sum = 0) →
          (∀ k v, (k, v) ∈ ds
            → paidBy (settleAux ds ((cN, c - min (-d) c) :: cs)) k = -v) ∧
          (∀ k v, (k, v) ∈ (cN, c - min (-d) c) :: cs
            → receivedBy (settleAux ds ((cN, c - min (-d) c) :: cs)) k = v) := ih
      have hsum2 : (ds.map Prod.snd).sum
          + (((cN, c - min (-d) c) :: cs).map Prod.snd).sum = 0 := by
        simp only [List.map_cons, List.sum_cons] at hsum ⊢
        omega
      obtain ⟨ih1, ih2⟩ := ihb (fun q hq => hd q (List.mem_cons_of_mem _ hq))
        (by
          intro q hq
          rcases List.mem_cons.mp hq with rfl | hq2
          · have hc0 : 0 < c := hc _ (List.mem_cons_self _ _)
            simp only
            omega
          · exact hc q (List.mem_cons_of_mem _ hq2))
        (by simpa using hrest) hsum2
      rw [settleAux_cons, if_pos h1b, if_neg h2b]
      constructor
      · intro k v hkv
        rcases List.mem_cons.mp hkv with heq | hq2
        · simp only [Prod.mk.injEq] at heq
          obtain ⟨rfl, rfl⟩ := heq
          rw [paidBy_cons, if_pos rfl,
            settleAux_paid_zero ds ((cN, c - min (-v) c) :: cs) k
              (fun hmem => hdN_notin (List.mem_append_left _ hmem))]
          omega
        · have hq1 : k ∈ ds.map Prod.fst := List.mem_map_of_mem Prod.fst hq2
          rw [paidBy_cons,
            if_neg (fun h => hdN_notin (List.mem_append_left _ (by rw [h]; exact hq1))),
            ih1 k v hq2]
          ring
      · intro k v hkv
        rcases List.mem_cons.mp hkv with heq | hq2
        · simp only [Prod.mk.injEq] at heq
          obtain ⟨rfl, rfl⟩ := heq
          rw [receivedBy_cons, if_pos rfl,
            ih2 k (v - min (-d) v) (List.mem_cons_self _ _)]
          omega
        · have hq1 : k ∈ cs.map Prod.fst := List.mem_map_of_mem Prod.fst hq2
          rw [receivedBy_cons, if_neg (fun h => hcN_notin (by rw [h]; exact hq1)),
            ih2 k v (List.mem_cons_of_mem _ hq2)]
          ring
  | case5 dN d ds cN c cs p h1 ih =>
      intro hd hc hnd hsum
      have h1b : ¬ (d + min (-d) c = 0) := h1
      have hm : min (-d) c = c := by
        rcases min_choice (-d) c with hm2 | hm2
        · exfalso
          rw [hm2] at h1b
          omega
        · exact hm2
      simp only [List.map_cons, List.cons_append] at hnd
      have hdN_notin : dN ∉ ds.map Prod.fst ++ cN :: cs.map Prod.fst :=
        (List.nodup_cons.mp hnd).1
      have hrest : (ds.map Prod.fst ++ cN :: cs.map Prod.fst).Nodup :=
        (List.nodup_cons.mp hnd).2
      have hcN_notin : cN ∉ cs.map Prod.fst := by
        have := (List.nodup_append.mp hrest).2.1
        exact (List.nodup_cons.mp this).1
      have hnd2 : (ds.map Prod.fst ++ cs.map Prod.fst).Nodup :=
        List.Nodup.sublist
          (List.Sublist.append_left (List.sublist_cons_self cN (cs.map Prod.fst)) _) hrest
      have hdN_notin2 : dN ∉ ds.map Prod.fst ++ cs.map Prod.fst := by
        intro hmem
        refine hdN_notin ?_
        rcases List.mem_append.mp hmem with h | h
        · exact List.mem_append_left _ h
        · exact List.mem_append_right _ (List.mem_cons_of_mem _ h)
      have ihb : (∀ q ∈ (dN, d + min (-d) c) :: ds, q.2 < 0) →
          (∀ q ∈ cs, 0 < q.2) →
          (((dN, d + min (-d) c) :: ds).map Prod.fst ++ cs.map Prod.fst).Nodup →
          ((((dN, d + min (-d) c) :: ds).map Prod.snd).sum + (cs.map Prod.snd).sum = 0) →
          (∀ k v, (k, v) ∈ (dN, d + min (-d) c) :: ds
            → paidBy (settleAux ((dN, d + min (-d) c) :: ds) cs) k = -v) ∧
          (∀ k v, (k, v) ∈ cs
            → receivedBy (settleAux ((dN, d + min (-d) c) :: ds) cs) k = v) := ih
      have hminl := min_le_left (-d) c
      have hsum2 : (((dN, d + min (-d) c) :: ds).map Prod.snd).sum
          + (cs.map Prod.snd).sum = 0 := by
        simp only [List.map_cons, List.sum_cons] at hsum ⊢
        rw [hm]
        omega
      obtain ⟨ih1, ih2⟩ := ihb
        (by
          intro q hq
          rcases List.mem_cons.mp hq with rfl | hq2
          · have hd0 : d < 0 := hd _ (List.mem_cons_self _ _)
            simp only
            omega
          · exact hd q (List.mem_cons_of_mem _ hq2))
        (fun q hq => hc q (List.mem_cons_of_mem _ hq))
        (by
          simp only [List.map_cons, List.cons_append]
          exact List.nodup_cons.mpr ⟨hdN_notin2, hnd2⟩)
        hsum2
      rw [settleAux_cons, if_neg h1b]
      constructor
      · intro k v hkv
        rcases List.mem_cons.mp hkv with heq | hq2
        · simp only [Prod.mk.injEq] at heq
          obtain ⟨rfl, rfl⟩ := heq
          rw [paidBy_cons, if_pos rfl,
            ih1 k (v + min (-v) c) (List.mem_cons_self _ _)]
          omega
        · have hq1 : k ∈ ds.map Prod.fst := List.mem_map_of_mem Prod.fst hq2
          rw [paidBy_cons,
            if_neg (fun h => hdN_notin (List.mem_append_left _ (by rw [h]; exact hq1))),
            ih1 k v (List.mem_cons_of_mem _ hq2)]
          ring
      · intro k v hkv
        rcases List.mem_cons.mp hkv with heq | hq2
        · simp only [Prod.mk.injEq] at heq
          obtain ⟨rfl, rfl⟩ := heq
          rw [receivedBy_cons, if_pos rfl,
            settleAux_recv_zero ((dN, d + min (-d) v) :: ds) cs k hcN_notin]
          omega
        · have hq1 : k ∈ cs.map Prod.fst := List.mem_map_of_mem Prod.fst hq2
          rw [receivedBy_cons, if_neg (fun h => hcN_notin (by rw [h]; exact hq1)),
            ih2 k v hq2]
          ring

theorem netBalanceVector_keys (M : List (List Int)) (n : Nat) :
    (netBalanceVector M n).map Prod.fst = List.range n := by
  rw [netBalanceVector, List.map_map]
  have h : (Prod.fst ∘ fun i => (i, netBalance M n i)) = id := rfl
  rw [h, List.map_id]

theorem netBalanceVector_snd (M : List (List Int)) (n : Nat) :
    (netBalanceVector M n).map Prod.snd = (List.range n).map fun i => netBalance M n i := by
  rw [netBalanceVector, List.map_map]
  rfl

theorem filter_split_sum (l : List (Nat × Int)) :
    ((l.filter fun p => p.2 < 0).map Prod.snd).sum
      + ((l.filter fun p => 0 < p.2).map Prod.snd).sum
      = (l.map Prod.snd).sum := by
  induction l with
  | nil => simp
  | cons q qs ih =>
      rcases lt_trichotomy q.2 0 with h | h | h
      · rw [List.filter_cons_of_pos (by simpa using h),
          List.filter_cons_of_neg (by simp; omega)]
        simp only [List.map_cons, List.sum_cons]
        omega
      · rw [List.filter_cons_of_neg (by simp; omega),
          List.filter_cons_of_neg (by simp; omega)]
        simp only [List.map_cons, List.sum_cons]
        omega
      · rw [List.filter_cons_of_neg (by simp; omega),
          List.filter_cons_of_pos (by simpa using h)]
        simp only [List.map_cons, List.sum_cons]
        omega

theorem filter_disjoint_length (l : List (Nat × Int)) :
    (l.filter fun p => p.2 < 0).length + (l.filter fun p => 0 < p.2).length
      ≤ l.length := by
  induction l with
  | nil => simp
  | cons q qs ih =>
      rcases lt_trichotomy q.2 0 with h | h | h
      · rw [List.filter_cons_of_pos (by simpa using h),
          List.filter_cons_of_neg (by simp; omega)]
        simp only [List.length_cons]
        omega
      · rw [List.filter_cons_of_neg (by simp; omega),
          List.filter_cons_of_neg (by simp; omega)]
        simp only [List.length_cons]
        omega
      · rw [List.filter_cons_of_neg (by simp; omega),
          List.filter_cons_of_pos (by simpa using h)]
        simp only [List.length_cons]
        omega

/-- C4: the net-balance settlement of a valid DebtMatrix of `n` nodes
terminates (`suggestSettlements` is a total function) with a list of
`(debtor, creditor, payment)` transactions in which every payment is
strictly positive, there are at most `n - 1` transactions, and applying all
payments to a scratch copy of the balances (each payment raises the
debtor's balance and lowers the creditor's) leaves every balance exactly
0. -/
theorem C4_net_balance_settlement (M : List (List Int)) (n : Nat)
    (hsq : Square M n) (_hnn : NonNegMatrix M) :
    (∀ t ∈ suggestSettlements (netBalanceVector M n), 0 < t.2.2) ∧
    (suggestSettlements (netBalanceVector M n)).length ≤ n - 1 ∧
    (∀ i, i < n →
      netBalance M n i + paidBy (suggestSettlements (netBalanceVector M n)) i
        - receivedBy (suggestSettlements (netBalanceVector M n)) i = 0) := by
  have hts : suggestSettlements (netBalanceVector M n)
      = settleAux
          (((netBalanceVector M n).filter fun p => p.2 < 0).mergeSort
            fun x y => decide (x.2 ≤ y.2))
          (((netBalanceVector M n).filter fun p => 0 < p.2).mergeSort
            fun x y => decide (y.2 ≤ x.2)) := rfl
  have hperm_d := List.mergeSort_perm
    ((netBalanceVector M n).filter fun p => p.2 < 0) fun x y => decide (x.2 ≤ y.2)
  have hperm_c := List.mergeSort_perm
    ((netBalanceVector M n).filter fun p => 0 < p.2) fun x y => decide (y.2 ≤ x.2)
  have hkeys : ((netBalanceVector M n).map Prod.fst).Nodup := by
    rw [netBalanceVector_keys]
    exact List.nodup_range n
  have hd_sign : ∀ q ∈ ((netBalanceVector M n).filter fun p => p.2 < 0).mergeSort
      (fun x y => decide (x.2 ≤ y.2)), q.2 < 0 := by
    intro q hq
    have := hperm_d.mem_iff.mp hq
    have h2 := (List.mem_filter.mp this).2
    simpa using h2
  have hc_sign : ∀ q ∈ ((netBalanceVector M n).filter fun p => 0 < p.2).mergeSort
      (fun x y => decide (y.2 ≤ x.2)), 0 < q.2 := by
    intro q hq
    have := hperm_c.mem_iff.mp hq
    have h2 := (List.mem_filter.mp this).2
    simpa using h2
  have hd0_keys : (((netBalanceVector M n).filter fun p => p.2 < 0).map Prod.fst).Nodup :=
    List.Nodup.sublist (List.Sublist.map _ (List.filter_sublist _)) hkeys
  have hc0_keys : (((netBalanceVector M n).filter fun p => 0 < p.2).map Prod.fst).Nodup :=
    List.Nodup.sublist (List.Sublist.map _ (List.filter_sublist _)) hkeys
  have hnovlp : ∀ x, x ∈ ((netBalanceVector M n).filter fun p => p.2 < 0).map Prod.fst →
      x ∈ ((netBalanceVector M n).filter fun p => 0 < p.2).map Prod.fst → False := by
    intro x hx1 hx2
    obtain ⟨q1, hq1, rfl⟩ := List.mem_map.mp hx1
    obtain ⟨q2, hq2, heq⟩ := List.mem_map.mp hx2
    have hm1 := List.mem_filter.mp hq1
    have hm2 := List.mem_filter.mp hq2
    have heq2 : q2 = q1 := List.inj_on_of_nodup_map hkeys hm2.1 hm1.1 heq
    subst heq2
    have h1 : q2.2 < 0 := by simpa using hm1.2
    have h2 : 0 < q2.2 := by simpa using hm2.2
    omega
  have hnd : ((((netBalanceVector M n).filter fun p => p.2 < 0).mergeSort
        (fun x y => decide (x.2 ≤ y.2))).map Prod.fst
      ++ (((netBalanceVector M n).filter fun p => 0 < p.2).mergeSort
        (fun x y => decide (y.2 ≤ x.2))).map Prod.fst).Nodup := by
    refine (List.Perm.nodup_iff ((hperm_d.map Prod.fst).append (hperm_c.map Prod.fst))).mpr ?_
    rw [List.nodup_append]
    exact ⟨hd0_keys, hc0_keys, fun a ha hb => hnovlp a ha hb⟩
  have hsum : ((((netBalanceVector M n).filter fun p => p.2 < 0).mergeSort
        (fun x y => decide (x.2 ≤ y.2))).map Prod.snd).sum
      + ((((netBalanceVector M n).filter fun p => 0 < p.2).mergeSort
        (fun x y => decide (y.2 ≤ x.2))).map Prod.snd).sum = 0 := by
    rw [(hperm_d.map Prod.snd).sum_eq, (hperm_c.map Prod.snd).sum_eq, filter_split_sum,
      netBalanceVector_snd, sum_map_range]
    exact sum_netBalance_eq_zero M n hsq
  obtain ⟨hpaid, hrecv⟩ := settleAux_exact _ _ hd_sign hc_sign hnd hsum
  refine ⟨?_, ?_, ?_⟩
  · rw [hts]
    exact settleAux_pos _ _ hd_sign hc_sign
  · rw [hts]
    have h1 := settleAux_length
      (((netBalanceVector M n).filter fun p => p.2 < 0).mergeSort
        fun x y => decide (x.2 ≤ y.2))
      (((netBalanceVector M n).filter fun p => 0 < p.2).mergeSort
        fun x y => decide (y.2 ≤ x.2))
    have h2 := filter_disjoint_length (netBalanceVector M n)
    have h3 : (netBalanceVector M n).length = n := by simp [netBalanceVector]
    rw [List.length_mergeSort, List.length_mergeSort] at h1
    omega
  · intro i hi
    have hmem : (i, netBalance M n i) ∈ netBalanceVector M n := by
      rw [netBalanceVector]
      exact List.mem_map_of_mem _ (List.mem_range.mpr hi)
    have hkey_d : i ∉ ((netBalanceVector M n).filter fun p => p.2 < 0).map Prod.fst
        → paidBy (suggestSettlements (netBalanceVector M n)) i = 0 := by
      intro hnotin
      rw [hts]
      refine settleAux_paid_zero _ _ i ?_
      intro hmem2
      exact hnotin ((hperm_d.map Prod.fst).mem_iff.mp hmem2)
    have hkey_c : i ∉ ((netBalanceVector M n).filter fun p => 0 < p.2).map Prod.fst
        → receivedBy (suggestSettlements (netBalanceVector M n)) i = 0 := by
      intro hnotin
      rw [hts]
      refine settleAux_recv_zero _ _ i ?_
      intro hmem2
      exact hnotin ((hperm_c.map Prod.fst).mem_iff.mp hmem2)
    have hunique : ∀ q ∈ netBalanceVector M n, q.1 = i → q = (i, netBalance M n i) := by
      intro q hq hq1
      refine List.inj_on_of_nodup_map hkeys hq hmem ?_
      simpa using hq1
    rcases lt_trichotomy (netBalance M n i) 0 with h | h | h
    · have hmemd : (i, netBalance M n i) ∈ ((netBalanceVector M n).filter
          fun p => p.2 < 0).mergeSort (fun x y => decide (x.2 ≤ y.2)) := by
        rw [hperm_d.mem_iff]
        exact List.mem_filter.mpr ⟨hmem, by simpa using h⟩
      have hp := hpaid i (netBalance M n i) hmemd
      have hr : receivedBy (suggestSettlements (netBalanceVector M n)) i = 0 := by
        refine hkey_c ?_
        intro hin
        obtain ⟨q, hq, hq1⟩ := List.mem_map.mp hin
        have hqf := List.mem_filter.mp hq
        have := hunique q hqf.1 hq1
        subst this
        have : (0 : Int) < netBalance M n i := by simpa using hqf.2
        omega
      rw [hts] at hr
      rw [hts, hp, hr]
      ring
    · have hpz : paidBy (suggestSettlements (netBalanceVector M n)) i = 0 := by
        refine hkey_d ?_
        intro hin
        obtain ⟨q, hq, hq1⟩ := List.mem_map.mp hin
        have hqf := List.mem_filter.mp hq
        have := hunique q hqf.1 hq1
        subst this
        have : netBalance M n i < 0 := by simpa using hqf.2
        omega
      have hrz : receivedBy (suggestSettlements (netBalanceVector M n)) i = 0 := by
        refine hkey_c ?_
        intro hin
        obtain ⟨q, hq, hq1⟩ := List.mem_map.mp hin
        have hqf := List.mem_filter.mp hq
        have := hunique q hqf.1 hq1
        subst this
        have : (0 : Int) < netBalance M n i := by simpa using hqf.2
        omega
      rw [hpz, hrz, h]
      ring
    · have hmemc : (i, netBalance M n i) ∈ ((netBalanceVector M n).filter
          fun p => 0 < p.2).mergeSort (fun x y => decide (y.2 ≤ x.2)) := by
        rw [hperm_c.mem_iff]
        exact List.mem_filter.mpr ⟨hmem, by simpa using h⟩
      have hr := hrecv i (netBalance M n i) hmemc
      have hp : paidBy (suggestSettlements (netBalanceVector M n)) i = 0 := by
        refine hkey_d ?_
        intro hin
        obtain ⟨q, hq, hq1⟩ := List.mem_map.mp hin
        have hqf := List.mem_filter.mp hq
        have := hunique q hqf.1 hq1
        subst this
        have : netBalance M n i < 0 := by simpa using hqf.2
        omega
      rw [hts] at hp
      rw [hts, hp, hr]
      ring

/-- Witness for C4 at the 2-node matrix `[[0,10],[0,0]]` (node 0 owes node 1
the amount 10). -/
theorem C4_witness :
    (∀ t ∈ suggestSettlements (netBalanceVector [[0, 10], [0, 0]] 2), 0 < t.2.2) ∧
    (suggestSettlements (netBalanceVector [[0, 10], [0, 0]] 2)).length ≤ 2 - 1 ∧
    (∀ i, i < 2 →
      netBalance [[0, 10], [0, 0]] 2 i
        + paidBy (suggestSettlements (netBalanceVector [[0, 10], [0, 0]] 2)) i
        - receivedBy (suggestSettlements (netBalanceVector [[0, 10], [0, 0]] 2)) i = 0) :=
  C4_net_balance_settlement [[0, 10], [0, 0]] 2 ⟨rfl, by decide⟩
    (show ∀ r ∈ [[(0:Int), 10], [0, 0]], ∀ x ∈ r, 0 ≤ x by decide)

/-! ## Dijkstra helper lemmas -/

theorem INF_pos : (0 : Int) < INF := by decide

theorem getD_set_self_int (l : List Int) (i : Nat) (x d : Int) (h : i < l.length) :
    (l.set i x).getD i d = x := by
  rw [List.getD_eq_getElem?_getD, List.getElem?_set_self h]
  rfl

theorem getD_set_ne_int (l : List Int) (i j : Nat) (x d : Int) (h : i ≠ j) :
    (l.set i x).getD j d = l.getD j d := by
  rw [List.getD_eq_getElem?_getD, List.getElem?_set_ne h, ← List.getD_eq_getElem?_getD]

theorem selectFold_inv (dist : List Int) (added : List Bool) (l : List Nat) :
    ∀ acc : Int × Int,
    (acc = (-1, INF) ∨ ∃ u : Nat, acc = ((u : Int), dist.getD u INF)
      ∧ added.getD u false = false ∧ dist.getD u INF < INF) →
    (l.foldl
        (fun acc v =>
          if added.getD v false = false ∧ dist.getD v INF < acc.2
          then ((v : Int), dist.getD v INF) else acc) acc
      = (-1, INF)
      ∨ ∃ u : Nat, l.foldl
          (fun acc v =>
            if added.getD v false = false ∧ dist.getD v INF < acc.2
            then ((v : Int), dist.getD v INF) else acc) acc
        = ((u : Int), dist.getD u INF)
        ∧ added.getD u false = false ∧ dist.getD u INF < INF) ∧
    (l.foldl
        (fun acc v =>
          if added.getD v false = false ∧ dist.getD v INF < acc.2
          then ((v : Int), dist.getD v INF) else acc) acc
      = (-1, INF)
      → acc = (-1, INF)
        ∧ ∀ v ∈ l, added.getD v false = false → ¬ dist.getD v INF < INF) := by
  induction l with
  | nil =>
      intro acc hacc
      exact ⟨hacc.imp id (fun ⟨u, h⟩ => ⟨u, h⟩), fun h => ⟨h, by simp⟩⟩
  | cons v vs ih =>
      intro acc hacc
      by_cases hcond : added.getD v false = false ∧ dist.getD v INF < acc.2
      · have hstep : (v :: vs).foldl
            (fun acc v =>
              if added.getD v false = false ∧ dist.getD v INF < acc.2
              then ((v : Int), dist.getD v INF) else acc) acc
            = vs.foldl
              (fun acc v =>
                if added.getD v false = false ∧ dist.getD v INF < acc.2
                then ((v : Int), dist.getD v INF) else acc)
              ((v : Int), dist.getD v INF) := by
          rw [List.foldl_cons, if_pos hcond]
        have hvfin : dist.getD v INF < INF := by
          rcases hacc with rfl | ⟨u, rfl, _, hu2⟩
          · exact hcond.2
          · exact lt_trans hcond.2 hu2
        obtain ⟨h1, h2⟩ := ih ((v : Int), dist.getD v INF)
          (Or.inr ⟨v, rfl, hcond.1, hvfin⟩)
        rw [hstep]
        refine ⟨h1, fun hneg => ?_⟩
        exfalso
        have h3 : (v : Int) = -1 := congrArg Prod.fst (h2 hneg).1
        omega
      · have hstep : (v :: vs).foldl
            (fun acc v =>
              if added.getD v false = false ∧ dist.getD v INF < acc.2
              then ((v : Int), dist.getD v INF) else acc) acc
            = vs.foldl
              (fun acc v =>
                if added.getD v false = false ∧ dist.getD v INF < acc.2
                then ((v : Int), dist.getD v INF) else acc) acc := by
          rw [List.foldl_cons, if_neg hcond]
        obtain ⟨h1, h2⟩ := ih acc hacc
        rw [hstep]
        refine ⟨h1, fun hneg => ?_⟩
        obtain ⟨hacc2, hall⟩ := h2 hneg
        refine ⟨hacc2, fun w hw hwadd => ?_⟩
        rcases List.mem_cons.mp hw with rfl | hw2
        · intro hlt
          subst hacc2
          exact hcond ⟨hwadd, hlt⟩
        · exact hall w hw2 hwadd

theorem selectMin_neg (dist : List Int) (added : List Bool) (n : Nat)
    (h : (selectMin dist added n).1 = -1) :
    ∀ v, v < n → added.getD v false = false → ¬ dist.getD v INF < INF := by
  obtain ⟨h1, h2⟩ := selectFold_inv dist added (List.range n) (-1, INF) (Or.inl rfl)
  rcases h1 with heq | ⟨u, hu, _, _⟩
  · intro v hv hvadd
    exact (h2 heq).2 v (List.mem_range.mpr hv) hvadd
  · exfalso
    have hfold : selectMin dist added n
        = (List.range n).foldl
          (fun acc v =>
            if added.getD v false = false ∧ dist.getD v INF < acc.2
            then ((v : Int), dist.getD v INF) else acc) (-1, INF) := rfl
    rw [hfold, hu] at h
    have h3 : (u : Int) = -1 := h
    omega

theorem selectMin_pos (dist : List Int) (added : List Bool) (n : Nat)
    (h : ¬ (selectMin dist added n).1 = -1) :
    ∃ u : Nat, u < n ∧ selectMin dist added n = ((u : Int), dist.getD u INF)
      ∧ added.getD u false = false ∧ dist.getD u INF < INF := by
  obtain ⟨h1, _⟩ := selectFold_inv dist added (List.range n) (-1, INF) (Or.inl rfl)
  rcases h1 with heq | ⟨u, hu, hadd, hfin⟩
  · refine absurd ?_ h
    have hfold : selectMin dist added n
        = (List.range n).foldl
          (fun acc v =>
            if added.getD v false = false ∧ dist.getD v INF < acc.2
            then ((v : Int), dist.getD v INF) else acc) (-1, INF) := rfl
    rw [hfold, heq]
  · refine ⟨u, ?_, hu, hadd, hfin⟩
    by_contra hun
    have : (selectMin dist added n) = ((u : Int), dist.getD u INF) := hu
    have hmem : ∀ (acc : Int × Int), ((List.range n).foldl
        (fun acc v =>
          if added.getD v false = false ∧ dist.getD v INF < acc.2
          then ((v : Int), dist.getD v INF) else acc) acc) = acc
        ∨ ∃ w ∈ List.range n, ((List.range n).foldl
          (fun acc v =>
            if added.getD v false = false ∧ dist.getD v INF < acc.2
            then ((v : Int), dist.getD v INF) else acc) acc).1 = (w : Int) := by
      intro acc
      induction (List.range n) generalizing acc with
      | nil => exact Or.inl rfl
      | cons w ws ihw =>
          by_cases hc : added.getD w false = false ∧ dist.getD w INF < acc.2
          · rcases ihw ((w : Int), dist.getD w INF) with he | ⟨w2, hw2, he⟩
            · refine Or.inr ⟨w, List.mem_cons_self _ _, ?_⟩
              simp only [List.foldl_cons, if_pos hc]
              rw [he]
            · refine Or.inr ⟨w2, List.mem_cons_of_mem _ hw2, ?_⟩
              simp only [List.foldl_cons, if_pos hc]
              exact he
          · rcases ihw acc with he | ⟨w2, hw2, he⟩
            · refine Or.inl ?_
              simp only [List.foldl_cons, if_neg hc]
              exact he
            · refine Or.inr ⟨w2, List.mem_cons_of_mem _ hw2, ?_⟩
              simp only [List.foldl_cons, if_neg hc]
              exact he
    have hfold : selectMin dist added n
        = (List.range n).foldl
          (fun acc v =>
            if added.getD v false = false ∧ dist.getD v INF < acc.2
            then ((v : Int), dist.getD v INF) else acc) (-1, INF) := rfl
    rcases hmem (-1, INF) with he | ⟨w, hw, he⟩
    · have h3 : (u : Int) = -1 := congrArg Prod.fst (hu.symm.trans he)
      omega
    · rw [hu] at he
      have h3 : (u : Int) = (w : Int) := he
      have h4 : u = w := by exact_mod_cast h3
      subst h4
      exact hun (List.mem_range.mp hw)

theorem relaxFold_spec (M : List (List Int)) (u : Nat) (du : Int) (l : List Nat)
    (hnd : l.Nodup) :
    ∀ dist parents : List Int,
    (l.foldl
        (fun dp v =>
          if 0 < getEntry M u v ∧ du + getEntry M u v < dp.1.getD v INF
          then (dp.1.set v (du + getEntry M u v), dp.2.set v (u : Int)) else dp)
        (dist, parents)).1.length = dist.length ∧
    (l.foldl
        (fun dp v =>
          if 0 < getEntry M u v ∧ du + getEntry M u v < dp.1.getD v INF
          then (dp.1.set v (du + getEntry M u v), dp.2.set v (u : Int)) else dp)
        (dist, parents)).2.length = parents.length ∧
    (∀ v, v ∉ l →
      (l.foldl
        (fun dp v =>
          if 0 < getEntry M u v ∧ du + getEntry M u v < dp.1.getD v INF
          then (dp.1.set v (du + getEntry M u v), dp.2.set v (u : Int)) else dp)
        (dist, parents)).1.getD v INF = dist.getD v INF ∧
      (l.foldl
        (fun dp v =>
          if 0 < getEntry M u v ∧ du + getEntry M u v < dp.1.getD v INF
          then (dp.1.set v (du + getEntry M u v), dp.2.set v (u : Int)) else dp)
        (dist, parents)).2.getD v (-1) = parents.getD v (-1)) ∧
    (∀ v ∈ l, v < dist.length → v < parents.length →
      ((l.foldl
        (fun dp v =>
          if 0 < getEntry M u v ∧ du + getEntry M u v < dp.1.getD v INF
          then (dp.1.set v (du + getEntry M u v), dp.2.set v (u : Int)) else dp)
        (dist, parents)).1.getD v INF
        = if 0 < getEntry M u v ∧ du + getEntry M u v < dist.getD v INF
          then du + getEntry M u v else dist.getD v INF) ∧
      ((l.foldl
        (fun dp v =>
          if 0 < getEntry M u v ∧ du + getEntry M u v < dp.1.getD v INF
          then (dp.1.set v (du + getEntry M u v), dp.2.set v (u : Int)) else dp)
        (dist, parents)).2.getD v (-1)
        = if 0 < getEntry M u v ∧ du + getEntry M u v < dist.getD v INF
          then (u : Int) else parents.getD v (-1))) := by
  induction l with
  | nil => intro dist parents; exact ⟨rfl, rfl, fun v _ => ⟨rfl, rfl⟩, fun v hv => by simp at hv⟩
  | cons v0 vs ih =>
      intro dist parents
      obtain ⟨hv0, hndvs⟩ := List.nodup_cons.mp hnd
      by_cases hc : 0 < getEntry M u v0 ∧ du + getEntry M u v0 < dist.getD v0 INF
      · have hstep : ((v0 :: vs).foldl
            (fun dp v =>
              if 0 < getEntry M u v ∧ du + getEntry M u v < dp.1.getD v INF
              then (dp.1.set v (du + getEntry M u v), dp.2.set v (u : Int)) else dp)
            (dist, parents))
            = (vs.foldl
                (fun dp v =>
                  if 0 < getEntry M u v ∧ du + getEntry M u v < dp.1.getD v INF
                  then (dp.1.set v (du + getEntry M u v), dp.2.set v (u : Int)) else dp)
                (dist.set v0 (du + getEntry M u v0), parents.set v0 (u : Int))) := by
          rw [List.foldl_cons, if_pos hc]
        obtain ⟨ih1, ih2, ih3, ih4⟩ := ih hndvs
          (dist.set v0 (du + getEntry M u v0)) (parents.set v0 (u : Int))
        rw [hstep]
        refine ⟨by rw [ih1, List.length_set], by rw [ih2, List.length_set], ?_, ?_⟩
        · intro v hv
          have hne : v0 ≠ v := fun h => hv (h ▸ List.mem_cons_self v0 vs)
          have hvs : v ∉ vs := fun h => hv (List.mem_cons_of_mem _ h)
          obtain ⟨h3a, h3b⟩ := ih3 v hvs
          rw [h3a, h3b, getD_set_ne_int _ _ _ _ _ hne, getD_set_ne_int _ _ _ _ _ hne]
          exact ⟨rfl, rfl⟩
        · intro v hv hvd hvp
          rcases List.mem_cons.mp hv with rfl | hv2
          · obtain ⟨h3a, h3b⟩ := ih3 v hv0
            rw [h3a, h3b, getD_set_self_int _ _ _ _ hvd, getD_set_self_int _ _ _ _ hvp,
              if_pos hc, if_pos hc]
            exact ⟨rfl, rfl⟩
          · have hne : v0 ≠ v := fun h => hv0 (h ▸ hv2)
            obtain ⟨h4a, h4b⟩ := ih4 v hv2 (by rw [List.length_set]; exact hvd)
              (by rw [List.length_set]; exact hvp)
            rw [h4a, h4b, getD_set_ne_int _ _ _ _ _ hne, getD_set_ne_int _ _ _ _ _ hne]
            exact ⟨rfl, rfl⟩
      · have hstep : ((v0 :: vs).foldl
            (fun dp v =>
              if 0 < getEntry M u v ∧ du + getEntry M u v < dp.1.getD v INF
              then (dp.1.set v (du + getEntry M u v), dp.2.set v (u : Int)) else dp)
            (dist, parents))
            = (vs.foldl
                (fun dp v =>
                  if 0 < getEntry M u v ∧ du + getEntry M u v < dp.1.getD v INF
                  then (dp.1.set v (du + getEntry M u v), dp.2.set v (u : Int)) else dp)
                (dist, parents)) := by
          rw [List.foldl_cons, if_neg hc]
        obtain ⟨ih1, ih2, ih3, ih4⟩ := ih hndvs dist parents
        rw [hstep]
        refine ⟨ih1, ih2, ?_, ?_⟩
        · intro v hv
          exact ih3 v (fun h => hv (List.mem_cons_of_mem _ h))
        · intro v hv hvd hvp
          rcases List.mem_cons.mp hv with rfl | hv2
          · obtain ⟨h3a, h3b⟩ := ih3 v hv0
            rw [h3a, h3b, if_neg hc, if_neg hc]
            exact ⟨rfl, rfl⟩
          · exact ih4 v hv2 hvd hvp

theorem relaxAll_dist_length (M : List (List Int)) (n u : Nat) (du : Int)
    (dist parents : List Int) :
    (relaxAll M n u du dist parents).1.length = dist.length :=
  (relaxFold_spec M u du (List.range n) (List.nodup_range n) dist parents).1

theorem relaxAll_parents_length (M : List (List Int)) (n u : Nat) (du : Int)
    (dist parents : List Int) :
    (relaxAll M n u du dist parents).2.length = parents.length :=
  (relaxFold_spec M u du (List.range n) (List.nodup_range n) dist parents).2.1

theorem relaxAll_dist_getD (M : List (List Int)) (n u : Nat) (du : Int)
    (dist parents : List Int) (v : Nat) (hv : v < n) (hvd : v < dist.length)
    (hvp : v < parents.length) :
    (relaxAll M n u du dist parents).1.getD v INF
      = if 0 < getEntry M u v ∧ du + getEntry M u v < dist.getD v INF
        then du + getEntry M u v else dist.getD v INF :=
  ((relaxFold_spec M u du (List.range n) (List.nodup_range n) dist parents).2.2.2
    v (List.mem_range.mpr hv) hvd hvp).1

theorem relaxAll_parents_getD (M : List (List Int)) (n u : Nat) (du : Int)
    (dist parents : List Int) (v : Nat) (hv : v < n) (hvd : v < dist.length)
    (hvp : v < parents.length) :
    (relaxAll M n u du dist parents).2.getD v (-1)
      = if 0 < getEntry M u v ∧ du + getEntry M u v < dist.getD v INF
        then (u : Int) else parents.getD v (-1) :=
  ((relaxFold_spec M u du (List.range n) (List.nodup_range n) dist parents).2.2.2
    v (List.mem_range.mpr hv) hvd hvp).2

theorem getD_set_self_any {α : Type} (l : List α) (i : Nat) (x d : α)
    (h : i < l.length) : (l.set i x).getD i d = x := by
  rw [List.getD_eq_getElem?_getD, List.getElem?_set_self h]
  rfl

theorem getD_set_ne_any {α : Type} (l : List α) (i j : Nat) (x d : α)
    (h : i ≠ j) : (l.set i x).getD j d = l.getD j d := by
  rw [List.getD_eq_getElem?_getD, List.getElem?_set_ne h, ← List.getD_eq_getElem?_getD]

theorem getD_replicate_any {α : Type} (n : Nat) (a d : α) (i : Nat) (h : i < n) :
    (List.replicate n a).getD i d = a := by
  rw [List.getD_eq_getElem?_getD, List.getElem?_replicate]
  simp [h]

theorem pyMark_length (added : List Bool) (i : Int) :
    (pyMark added i).length = added.length := by
  unfold pyMark
  split <;> rw [List.length_set]

theorem pyMark_neg_one (added : List Bool) :
    pyMark added (-1) = added.set (added.length - 1) true := rfl

theorem pyRow_natCast (n u : Nat) : pyRow n ((u : Int)) = u := by
  unfold pyRow
  rw [if_neg (by omega)]
  omega

theorem selectMin_eq_neg (dist : List Int) (added : List Bool) (n : Nat)
    (h : (selectMin dist added n).1 = -1) :
    selectMin dist added n = (-1, INF) := by
  obtain ⟨h1, _⟩ := selectFold_inv dist added (List.range n) (-1, INF) (Or.inl rfl)
  have hfold : selectMin dist added n
      = (List.range n).foldl
        (fun acc v =>
          if added.getD v false = false ∧ dist.getD v INF < acc.2
          then ((v : Int), dist.getD v INF) else acc) (-1, INF) := rfl
  rcases h1 with heq | ⟨u, hu, _, _⟩
  · rw [hfold, heq]
  · exfalso
    rw [hfold, hu] at h
    have h3 : (u : Int) = -1 := h
    omega

theorem djLoopAll_inv (M : List (List Int)) (n s : Nat) (k : Nat) :
    ∀ st : DijkstraState,
    st.dist.length = n → st.added.length = n → st.parents.length = n →
    (∀ v, v < n → st.dist.getD v INF ≤ INF) →
    (∀ v, v < n → st.dist.getD v INF < INF → Reach M n s v) →
    (djLoopAll M n k st).dist.length = n ∧
    (djLoopAll M n k st).added.length = n ∧
    (djLoopAll M n k st).parents.length = n ∧
    (∀ v, v < n → (djLoopAll M n k st).dist.getD v INF ≤ INF) ∧
    (∀ v, v < n → (djLoopAll M n k st).dist.getD v INF < INF → Reach M n s v) := by
  induction k with
  | zero =>
      intro st hd ha hp hle hreach
      exact ⟨hd, ha, hp, hle, hreach⟩
  | succ k ih =>
      intro st hd ha hp hle hreach
      have hunfold : djLoopAll M n (k + 1) st
          = djLoopAll M n k
            ⟨(relaxAll M n (pyRow n (selectMin st.dist st.added n).1)
                (selectMin st.dist st.added n).2 st.dist st.parents).1,
              pyMark st.added (selectMin st.dist st.added n).1,
              (relaxAll M n (pyRow n (selectMin st.dist st.added n).1)
                (selectMin st.dist st.added n).2 st.dist st.parents).2⟩ := rfl
      rw [hunfold]
      have hnewdist : ∀ v, v < n →
          (relaxAll M n (pyRow n (selectMin st.dist st.added n).1)
              (selectMin st.dist st.added n).2 st.dist st.parents).1.getD v INF ≤ INF ∧
          ((relaxAll M n (pyRow n (selectMin st.dist st.added n).1)
              (selectMin st.dist st.added n).2 st.dist st.parents).1.getD v INF < INF
            → Reach M n s v) := by
        intro v hv
        have hvd : v < st.dist.length := by omega
        have hvp : v < st.parents.length := by omega
        rw [relaxAll_dist_getD M n (pyRow n (selectMin st.dist st.added n).1)
          (selectMin st.dist st.added n).2 st.dist st.parents v hv hvd hvp]
        by_cases hcond : 0 < getEntry M (pyRow n (selectMin st.dist st.added n).1) v
            ∧ (selectMin st.dist st.added n).2
              + getEntry M (pyRow n (selectMin st.dist st.added n).1) v
              < st.dist.getD v INF
        · rw [if_pos hcond]
          by_cases hneg : (selectMin st.dist st.added n).1 = -1
          · exfalso
            have hsel := selectMin_eq_neg st.dist st.added n hneg
            have h2 : (selectMin st.dist st.added n).2 = INF := congrArg Prod.snd hsel
            have hb := hle v hv
            obtain ⟨hc1, hc2⟩ := hcond
            omega
          · obtain ⟨u0, hu0n, hsel, _, hu0fin⟩ := selectMin_pos st.dist st.added n hneg
            have h1 : (selectMin st.dist st.added n).1 = (u0 : Int) :=
              congrArg Prod.fst hsel
            have h2 : (selectMin st.dist st.added n).2 = st.dist.getD u0 INF :=
              congrArg Prod.snd hsel
            have hrow : pyRow n (selectMin st.dist st.added n).1 = u0 := by
              rw [h1]
              exact pyRow_natCast n u0
            refine ⟨?_, fun _ => ?_⟩
            · have hb := hle v hv
              obtain ⟨hc1, hc2⟩ := hcond
              omega
            · have hreachu : Reach M n s u0 := hreach u0 hu0n hu0fin
              have hedge : Edge M n u0 v := by
                refine ⟨hu0n, hv, ?_⟩
                rw [hrow] at hcond
                exact hcond.1
              exact Relation.ReflTransGen.tail hreachu hedge
        · rw [if_neg hcond]
          exact ⟨hle v hv, hreach v hv⟩
      refine ih _ ?_ ?_ ?_ ?_ ?_
      · rw [relaxAll_dist_length]
        exact hd
      · rw [pyMark_length]
        exact ha
      · rw [relaxAll_parents_length]
        exact hp
      · intro v hv
        exact (hnewdist v hv).1
      · intro v hv
        exact (hnewdist v hv).2

theorem row0_length (M : List (List Int)) (n : Nat) (hsq : Square M n)
    (hn : 0 < n) : (M.getD 0 []).length = n := by
  have h0 : 0 < M.length := by rw [hsq.1]; exact hn
  have h1 : M.getD 0 [] = M[0] := by
    rw [List.getD_eq_getElem?_getD, List.getElem?_eq_getElem h0]
    rfl
  rw [h1]
  exact hsq.2 _ (List.getElem_mem h0)

/-- **C10.** For every square matrix of non-negative integers and every
in-range source, the all-targets Dijkstra pass (`dijkstra` in `core.py` and
in the `src/unnamed/part_000` copy) is total in the embedding: the three
state arrays keep length `n`, so every index the loop touches is in range —
in particular, when an iteration finds no unvisited vertex of finite
distance the selection index stays at the sentinel `-1` and the Python
assignment `added[-1] = True` marks the highest-index vertex
`added.length - 1` (last conjunct); and every vertex with no directed path
of positive-weight edges from the source ends with its recorded distance
still equal to the infinity sentinel `sys.maxsize`. -/
theorem C10_all_targets_total (M : List (List Int)) (n s : Nat)
    (hsq : Square M n) (hnn : NonNegMatrix M) (hn : 0 < n) (hs : s < n) :
    ((dijkstraAll M s).dist.length = n ∧ (dijkstraAll M s).added.length = n ∧
      (dijkstraAll M s).parents.length = n) ∧
    (∀ v, v < n → ¬ Reach M n s v → (dijkstraAll M s).dist.getD v INF = INF) ∧
    (∀ added : List Bool, pyMark added (-1) = added.set (added.length - 1) true) := by
  have hrow0 := row0_length M n hsq hn
  have hda : dijkstraAll M s = djLoopAll M n (n - 1) (initState n s) := by
    show djLoopAll M (M.getD 0 []).length ((M.getD 0 []).length - 1)
        (initState (M.getD 0 []).length s) = _
    rw [hrow0]
  have hslen : s < (List.replicate n INF).length := by
    rw [List.length_replicate]
    exact hs
  have hinit : ∀ v, v < n → (initState n s).dist.getD v INF
      = if v = s then 0 else INF := by
    intro v hv
    by_cases hvs : v = s
    · subst hvs
      rw [if_pos rfl]
      exact getD_set_self_any _ _ _ _ hslen
    · rw [if_neg hvs]
      show ((List.replicate n INF).set s 0).getD v INF = INF
      rw [getD_set_ne_any _ _ _ _ _ (fun h => hvs h.symm)]
      exact getD_replicate_any n INF INF v hv
  obtain ⟨h1, h2, h3, h4, h5⟩ := djLoopAll_inv M n s (n - 1) (initState n s)
    (by show ((List.replicate n INF).set s 0).length = n
        rw [List.length_set, List.length_replicate])
    (by show (List.replicate n false).length = n
        rw [List.length_replicate])
    (by show (List.replicate n (-1 : Int)).length = n
        rw [List.length_replicate])
    (by intro v hv
        rw [hinit v hv]
        by_cases hvs : v = s
        · rw [if_pos hvs]
          exact le_of_lt INF_pos
        · rw [if_neg hvs])
    (by intro v hv hfin
        rw [hinit v hv] at hfin
        by_cases hvs : v = s
        · subst hvs
          exact Relation.ReflTransGen.refl
        · rw [if_neg hvs] at hfin
          exact absurd hfin (lt_irrefl INF))
  rw [hda]
  refine ⟨⟨h1, h2, h3⟩, ?_, fun added => pyMark_neg_one added⟩
  intro v hv hnr
  have hle := h4 v hv
  by_cases hfin : (djLoopAll M n (n - 1) (initState n s)).dist.getD v INF < INF
  · exact absurd (h5 v hv hfin) hnr
  · omega

theorem C10_witness :
    Square [[(0 : Int), 0], [0, 0]] 2 ∧ NonNegMatrix [[(0 : Int), 0], [0, 0]] ∧
    (∀ v, v < 2 → ¬ Reach [[(0 : Int), 0], [0, 0]] 2 0 v →
      (dijkstraAll [[(0 : Int), 0], [0, 0]] 0).dist.getD v INF = INF) := by
  have hsq : Square [[(0 : Int), 0], [0, 0]] 2 :=
    show ([[(0 : Int), 0], [0, 0]] : List (List Int)).length = 2
        ∧ ∀ r ∈ ([[(0 : Int), 0], [0, 0]] : List (List Int)), r.length = 2 by decide
  have hnn : NonNegMatrix [[(0 : Int), 0], [0, 0]] :=
    show ∀ r ∈ ([[(0 : Int), 0], [0, 0]] : List (List Int)), ∀ x ∈ r, 0 ≤ x by decide
  exact ⟨hsq, hnn,
    (C10_all_targets_total [[(0 : Int), 0], [0, 0]] 2 0 hsq hnn
      (by decide) (by decide)).2.1⟩

theorem addedCount_cons (b : Bool) (l : List Bool) :
    addedCount (b :: l) = (if b then 1 else 0) + addedCount l := by
  cases b <;> simp [addedCount, List.filter_cons] <;> omega

theorem addedCount_le_length (added : List Bool) : addedCount added ≤ added.length :=
  List.length_filter_le _ _

theorem addedCount_set_true (added : List Bool) :
    ∀ u, u < added.length → added.getD u false = false →
    addedCount (added.set u true) = addedCount added + 1 := by
  induction added with
  | nil =>
      intro u hu
      simp at hu
  | cons b t ih =>
      intro u hu hfalse
      cases u with
      | zero =>
          have hb : b = false := hfalse
          subst hb
          rw [show (false :: t).set 0 true = true :: t from rfl,
            addedCount_cons, addedCount_cons]
          simp [Nat.add_comm]
      | succ u =>
          have hu' : u < t.length := by simpa using hu
          have hf : t.getD u false = false := hfalse
          rw [show (b :: t).set (u + 1) true = b :: t.set u true from rfl,
            addedCount_cons, addedCount_cons, ih u hu' hf]
          omega

theorem addedCount_lt_of_unvisited (added : List Bool) (u : Nat)
    (hu : u < added.length) (hf : added.getD u false = false) :
    addedCount added < added.length := by
  have h1 := addedCount_set_true added u hu hf
  have h2 := addedCount_le_length (added.set u true)
  rw [List.length_set] at h2
  omega

theorem addedCount_replicate_false (n : Nat) :
    addedCount (List.replicate n false) = 0 := by
  induction n with
  | zero => rfl
  | succ n ih =>
      rw [List.replicate_succ, addedCount_cons, ih]
      rfl

theorem distRank_lt_of_closer (dist : List Int) (n u v : Nat) (hun : u < n)
    (hlt : dist.getD u INF < dist.getD v INF) :
    distRank dist n u < distRank dist n v := by
  have hsub : (List.range n).filter (fun w => decide (dist.getD w INF < dist.getD u INF))
      = ((List.range n).filter
          (fun w => decide (dist.getD w INF < dist.getD v INF))).filter
        (fun w => decide (dist.getD w INF < dist.getD u INF)) := by
    rw [List.filter_filter]
    refine (List.filter_congr ?_).symm
    intro a _
    by_cases ha : dist.getD a INF < dist.getD u INF
    · have hav : dist.getD a INF < dist.getD v INF := lt_trans ha hlt
      rw [decide_eq_true ha, decide_eq_true hav]
      rfl
    · rw [decide_eq_false ha]
      rfl
  have hsl : ((List.range n).filter
        (fun w => decide (dist.getD w INF < dist.getD u INF))).Sublist
      ((List.range n).filter (fun w => decide (dist.getD w INF < dist.getD v INF))) := by
    rw [hsub]
    exact List.filter_sublist _
  have hlen := hsl.length_le
  rcases lt_or_eq_of_le hlen with h | h
  · exact h
  · exfalso
    have heq := hsl.eq_of_length h
    have humem : u ∈ (List.range n).filter
        (fun w => decide (dist.getD w INF < dist.getD v INF)) := by
      rw [List.mem_filter]
      exact ⟨List.mem_range.mpr hun, by simpa using hlt⟩
    rw [← heq, List.mem_filter] at humem
    have := humem.2
    simp at this

theorem distRank_le (dist : List Int) (n v : Nat) : distRank dist n v ≤ n := by
  have h := List.length_filter_le
    (fun u => decide (dist.getD u INF < dist.getD v INF)) (List.range n)
  rw [List.length_range] at h
  exact h

theorem relaxAll_dist_mono (M : List (List Int)) (n u : Nat) (du : Int)
    (dist parents : List Int) (v : Nat) (hv : v < n) (hvd : v < dist.length)
    (hvp : v < parents.length) :
    (relaxAll M n u du dist parents).1.getD v INF ≤ dist.getD v INF := by
  rw [relaxAll_dist_getD M n u du dist parents v hv hvd hvp]
  by_cases hc : 0 < getEntry M u v ∧ du + getEntry M u v < dist.getD v INF
  · rw [if_pos hc]
    exact le_of_lt hc.2
  · rw [if_neg hc]

theorem InvT_step (M : List (List Int)) (n s dest : Nat) (W : Int)
    (hW : 0 ≤ W) (hbound : (n : Int) * W < INF)
    (hent : ∀ i j, i < n → j < n → getEntry M i j ≤ W)
    (hs : s < n)
    (st : DijkstraState) (inv : InvT M n s dest W st)
    (u0 : Nat) (hu0n : u0 < n) (hadd : st.added.getD u0 false = false)
    (hu0fin : st.dist.getD u0 INF < INF) :
    InvT M n s dest W
      ⟨(relaxAll M n u0 (st.dist.getD u0 INF) st.dist st.parents).1,
        st.added.set u0 true,
        (relaxAll M n u0 (st.dist.getD u0 INF) st.dist st.parents).2⟩ ∧
    (∀ v, v < n → 0 < getEntry M u0 v →
      (relaxAll M n u0 (st.dist.getD u0 INF) st.dist st.parents).1.getD v INF < INF) ∧
    addedCount (st.added.set u0 true) = addedCount st.added + 1 := by
  have hvd : ∀ v : Nat, v < n → v < st.dist.length := by
    intro v hv
    rw [inv.hdl]
    exact hv
  have hvp : ∀ v : Nat, v < n → v < st.parents.length := by
    intro v hv
    rw [inv.hpl]
    exact hv
  have hdd : ∀ v, v < n →
      (relaxAll M n u0 (st.dist.getD u0 INF) st.dist st.parents).1.getD v INF
        = if 0 < getEntry M u0 v
              ∧ st.dist.getD u0 INF + getEntry M u0 v < st.dist.getD v INF
          then st.dist.getD u0 INF + getEntry M u0 v else st.dist.getD v INF :=
    fun v hv => relaxAll_dist_getD M n u0 _ st.dist st.parents v hv (hvd v hv) (hvp v hv)
  have hpp : ∀ v, v < n →
      (relaxAll M n u0 (st.dist.getD u0 INF) st.dist st.parents).2.getD v (-1)
        = if 0 < getEntry M u0 v
              ∧ st.dist.getD u0 INF + getEntry M u0 v < st.dist.getD v INF
          then (u0 : Int) else st.parents.getD v (-1) :=
    fun v hv => relaxAll_parents_getD M n u0 _ st.dist st.parents v hv (hvd v hv) (hvp v hv)
  have hmono : ∀ v, v < n →
      (relaxAll M n u0 (st.dist.getD u0 INF) st.dist st.parents).1.getD v INF
        ≤ st.dist.getD v INF :=
    fun v hv => relaxAll_dist_mono M n u0 _ st.dist st.parents v hv (hvd v hv) (hvp v hv)
  have hcnt : addedCount (st.added.set u0 true) = addedCount st.added + 1 := by
    refine addedCount_set_true st.added u0 ?_ hadd
    rw [inv.hal]
    exact hu0n
  have hcntlt : addedCount st.added < n := by
    have h := addedCount_lt_of_unvisited st.added u0 (by rw [inv.hal]; exact hu0n) hadd
    rw [inv.hal] at h
    exact h
  have hduW := inv.hbnd u0 hu0n hu0fin
  have hrelaxfin : ∀ v, v < n → 0 < getEntry M u0 v →
      (relaxAll M n u0 (st.dist.getD u0 INF) st.dist st.parents).1.getD v INF < INF := by
    intro v hv hw
    have hwW : getEntry M u0 v ≤ W := hent u0 v hu0n hv
    have hcast : ((addedCount st.added : Int) + 1) ≤ (n : Int) := by exact_mod_cast hcntlt
    have hmul : ((addedCount st.added : Int) + 1) * W ≤ (n : Int) * W :=
      mul_le_mul_of_nonneg_right hcast hW
    have hsum : st.dist.getD u0 INF + getEntry M u0 v ≤ (n : Int) * W := by
      nlinarith
    rw [hdd v hv]
    by_cases hc : 0 < getEntry M u0 v
        ∧ st.dist.getD u0 INF + getEntry M u0 v < st.dist.getD v INF
    · rw [if_pos hc]
      exact lt_of_le_of_lt hsum hbound
    · rw [if_neg hc]
      have hnc : ¬ st.dist.getD u0 INF + getEntry M u0 v < st.dist.getD v INF :=
        fun hlt => hc ⟨hw, hlt⟩
      calc st.dist.getD v INF ≤ st.dist.getD u0 INF + getEntry M u0 v :=
            le_of_not_lt hnc
        _ ≤ (n : Int) * W := hsum
        _ < INF := hbound
  have hdist_u0 : (relaxAll M n u0 (st.dist.getD u0 INF) st.dist st.parents).1.getD u0 INF
      = st.dist.getD u0 INF := by
    rw [hdd u0 hu0n]
    by_cases hc : 0 < getEntry M u0 u0
        ∧ st.dist.getD u0 INF + getEntry M u0 u0 < st.dist.getD u0 INF
    · exfalso
      obtain ⟨hc1, hc2⟩ := hc
      omega
    · rw [if_neg hc]
  have hncs : ¬ (0 < getEntry M u0 s
      ∧ st.dist.getD u0 INF + getEntry M u0 s < st.dist.getD s INF) := by
    rintro ⟨hc1, hc2⟩
    rw [inv.hds] at hc2
    have := inv.hnonneg u0 hu0n
    omega
  refine ⟨⟨?_, ?_, ?_, ?_, ?_, ?_, ?_, ?_, ?_, ?_, ?_, ?_⟩, hrelaxfin, hcnt⟩
  · dsimp only
    rw [relaxAll_dist_length]
    exact inv.hdl
  · dsimp only
    rw [List.length_set]
    exact inv.hal
  · dsimp only
    rw [relaxAll_parents_length]
    exact inv.hpl
  · dsimp only
    rw [hdd s hs, if_neg hncs]
    exact inv.hds
  · dsimp only
    rw [hpp s hs, if_neg hncs]
    exact inv.hps
  · dsimp only
    intro v hv
    rw [hdd v hv]
    by_cases hc : 0 < getEntry M u0 v
        ∧ st.dist.getD u0 INF + getEntry M u0 v < st.dist.getD v INF
    · rw [if_pos hc]
      have h1 := inv.hnonneg u0 hu0n
      obtain ⟨hc1, hc2⟩ := hc
      omega
    · rw [if_neg hc]
      exact inv.hnonneg v hv
  · dsimp only
    intro v hv
    rw [hdd v hv]
    by_cases hc : 0 < getEntry M u0 v
        ∧ st.dist.getD u0 INF + getEntry M u0 v < st.dist.getD v INF
    · rw [if_pos hc]
      have h1 := inv.hleI v hv
      obtain ⟨hc1, hc2⟩ := hc
      omega
    · rw [if_neg hc]
      exact inv.hleI v hv
  · dsimp only
    intro v hv hfin
    rw [hcnt]
    rw [hdd v hv] at hfin ⊢
    by_cases hc : 0 < getEntry M u0 v
        ∧ st.dist.getD u0 INF + getEntry M u0 v < st.dist.getD v INF
    · rw [if_pos hc]
      have hwW : getEntry M u0 v ≤ W := hent u0 v hu0n hv
      push_cast
      linarith
    · rw [if_neg hc] at hfin ⊢
      have h1 := inv.hbnd v hv hfin
      push_cast
      linarith
  · dsimp only
    intro v hv hfin
    rw [hdd v hv] at hfin
    by_cases hc : 0 < getEntry M u0 v
        ∧ st.dist.getD u0 INF + getEntry M u0 v < st.dist.getD v INF
    · exact Relation.ReflTransGen.tail (inv.hreach u0 hu0n hu0fin) ⟨hu0n, hv, hc.1⟩
    · rw [if_neg hc] at hfin
      exact inv.hreach v hv hfin
  · dsimp only
    intro v hv hvs hfin
    rw [hdd v hv] at hfin
    rw [hpp v hv]
    by_cases hc : 0 < getEntry M u0 v
        ∧ st.dist.getD u0 INF + getEntry M u0 v < st.dist.getD v INF
    · rw [if_pos hc]
      intro habs
      omega
    · rw [if_neg hc] at hfin ⊢
      exact inv.hpar v hv hvs hfin
  · dsimp only
    intro v hv hpne
    rw [hpp v hv] at hpne
    by_cases hc : 0 < getEntry M u0 v
        ∧ st.dist.getD u0 INF + getEntry M u0 v < st.dist.getD v INF
    · refine ⟨u0, hu0n, ?_, hc.1, ?_⟩
      · rw [hpp v hv, if_pos hc]
      · rw [hdist_u0, hdd v hv, if_pos hc]
    · rw [if_neg hc] at hpne
      obtain ⟨w0, hw0n, hw0eq, hw0pos, hw0le⟩ := inv.hpspec v hv hpne
      refine ⟨w0, hw0n, ?_, hw0pos, ?_⟩
      · rw [hpp v hv, if_neg hc]
        exact hw0eq
      · rw [hdd v hv, if_neg hc]
        have h1 := hmono w0 hw0n
        omega
  · dsimp only
    intro u hu hutrue
    by_cases huu : u = u0
    · subst huu
      exact Or.inr (fun v hv hw => hrelaxfin v hv hw)
    · have hold : st.added.getD u false = true := by
        rw [getD_set_ne_any st.added u0 u true false (fun h => huu h.symm)] at hutrue
        exact hutrue
      rcases inv.hclosed u hu hold with hud | hnb
      · exact Or.inl hud
      · refine Or.inr fun v hv hw => ?_
        have h1 := hnb v hv hw
        have h2 := hmono v hv
        omega

theorem InvT_mark (M : List (List Int)) (n s dest : Nat) (W : Int) (hW : 0 ≤ W)
    (st : DijkstraState) (inv : InvT M n s dest W st)
    (hdn : dest < n) (hadd : st.added.getD dest false = false) :
    InvT M n s dest W ⟨st.dist, st.added.set dest true, st.parents⟩ := by
  have hcnt : addedCount (st.added.set dest true) = addedCount st.added + 1 := by
    refine addedCount_set_true st.added dest ?_ hadd
    rw [inv.hal]
    exact hdn
  refine ⟨?_, ?_, ?_, ?_, ?_, ?_, ?_, ?_, ?_, ?_, ?_, ?_⟩
  · dsimp only
    exact inv.hdl
  · dsimp only
    rw [List.length_set]
    exact inv.hal
  · dsimp only
    exact inv.hpl
  · dsimp only
    exact inv.hds
  · dsimp only
    exact inv.hps
  · dsimp only
    exact inv.hnonneg
  · dsimp only
    exact inv.hleI
  · dsimp only
    intro v hv hfin
    rw [hcnt]
    have h1 := inv.hbnd v hv hfin
    push_cast
    linarith
  · dsimp only
    exact inv.hreach
  · dsimp only
    exact inv.hpar
  · dsimp only
    exact inv.hpspec
  · dsimp only
    intro u hu hutrue
    by_cases huu : u = dest
    · exact Or.inl huu
    · have hold : st.added.getD u false = true := by
        rw [getD_set_ne_any st.added dest u true false (fun h => huu h.symm)] at hutrue
        exact hutrue
      exact inv.hclosed u hu hold

theorem djLoopT_loop (M : List (List Int)) (n s dest : Nat) (W : Int)
    (hW : 0 ≤ W) (hbound : (n : Int) * W < INF)
    (hent : ∀ i j, i < n → j < n → getEntry M i j ≤ W)
    (hs : s < n) :
    ∀ k st, InvT M n s dest W st → st.added.getD dest false = false →
    InvT M n s dest W (djLoopT M n dest k st) ∧
    ((djLoopT M n dest k st).dist.getD dest INF < INF ∨
      ((djLoopT M n dest k st).added.getD dest false = false ∧
        ∀ v, v < n → (djLoopT M n dest k st).added.getD v false = false →
          (djLoopT M n dest k st).dist.getD v INF = INF) ∨
      ((djLoopT M n dest k st).added.getD dest false = false ∧
        addedCount (djLoopT M n dest k st).added ≥ addedCount st.added + k)) := by
  intro k
  induction k with
  | zero =>
      intro st inv hadf
      exact ⟨inv, Or.inr (Or.inr ⟨hadf, Nat.le_refl _⟩)⟩
  | succ k ih =>
      intro st inv hadf
      have hunf : djLoopT M n dest (k + 1) st
          = (if (selectMin st.dist st.added n).1 = -1 then st
            else if (selectMin st.dist st.added n).1.toNat = dest
              then ⟨st.dist,
                st.added.set (selectMin st.dist st.added n).1.toNat true, st.parents⟩
              else djLoopT M n dest k
                ⟨(relaxAll M n (selectMin st.dist st.added n).1.toNat
                    (selectMin st.dist st.added n).2 st.dist st.parents).1,
                  st.added.set (selectMin st.dist st.added n).1.toNat true,
                  (relaxAll M n (selectMin st.dist st.added n).1.toNat
                    (selectMin st.dist st.added n).2 st.dist st.parents).2⟩) := rfl
      by_cases hneg : (selectMin st.dist st.added n).1 = -1
      · rw [hunf, if_pos hneg]
        refine ⟨inv, Or.inr (Or.inl ⟨hadf, ?_⟩)⟩
        intro v hv hunvis
        have hni := selectMin_neg st.dist st.added n hneg v hv hunvis
        have hle := inv.hleI v hv
        omega
      · obtain ⟨u0, hu0n, hsel, hadd0, hu0fin⟩ := selectMin_pos st.dist st.added n hneg
        have h1 : (selectMin st.dist st.added n).1 = (u0 : Int) := congrArg Prod.fst hsel
        have h2 : (selectMin st.dist st.added n).2 = st.dist.getD u0 INF :=
          congrArg Prod.snd hsel
        have htn : (selectMin st.dist st.added n).1.toNat = u0 := by
          rw [h1]
          omega
        rw [hunf, if_neg hneg, htn, h2]
        by_cases hdest0 : u0 = dest
        · rw [if_pos hdest0]
          subst hdest0
          refine ⟨InvT_mark M n s u0 W hW st inv hu0n hadf, Or.inl ?_⟩
          dsimp only
          exact hu0fin
        · rw [if_neg hdest0]
          obtain ⟨inv2, hrelaxfin, hcnt⟩ :=
            InvT_step M n s dest W hW hbound hent hs st inv u0 hu0n hadd0 hu0fin
          have hadf2 : ((⟨(relaxAll M n u0 (st.dist.getD u0 INF) st.dist st.parents).1,
              st.added.set u0 true,
              (relaxAll M n u0 (st.dist.getD u0 INF) st.dist st.parents).2⟩ :
                DijkstraState)).added.getD dest false = false := by
            dsimp only
            rw [getD_set_ne_any st.added u0 dest true false hdest0]
            exact hadf
          obtain ⟨invR, hdisj⟩ := ih _ inv2 hadf2
          refine ⟨invR, ?_⟩
          rcases hdisj with hfin | hbrk | ⟨hadfR, hge⟩
          · exact Or.inl hfin
          · exact Or.inr (Or.inl hbrk)
          · refine Or.inr (Or.inr ⟨hadfR, ?_⟩)
            dsimp only at hge
            rw [hcnt] at hge
            omega

theorem reach_visited_of_closed (M : List (List Int)) (n s dest : Nat) (W : Int)
    (st : DijkstraState) (inv : InvT M n s dest W st)
    (hadf : st.added.getD dest false = false)
    (hall : ∀ v, v < n → st.added.getD v false = false → st.dist.getD v INF = INF)
    (hs : s < n) (hsd : s ≠ dest) :
    ∀ v, Reach M n s v → st.added.getD v false = true ∧ v ≠ dest := by
  intro v hr
  induction hr with
  | refl =>
      refine ⟨?_, hsd⟩
      cases hb : st.added.getD s false with
      | false =>
          have h1 := hall s hs hb
          rw [inv.hds] at h1
          have h2 := INF_pos
          omega
      | true => rfl
  | @tail b c hr2 e ih =>
      obtain ⟨hbn, hcn, hw⟩ := e
      obtain ⟨hbadd, hbne⟩ := ih
      have hfin : st.dist.getD c INF < INF := by
        rcases inv.hclosed b hbn hbadd with hbd | hnb
        · exact absurd hbd hbne
        · exact hnb c hcn hw
      have hcadd : st.added.getD c false = true := by
        cases hb : st.added.getD c false with
        | false =>
            have h1 := hall c hcn hb
            omega
        | true => rfl
      refine ⟨hcadd, ?_⟩
      intro hcd
      rw [hcd] at hcadd
      rw [hadf] at hcadd
      exact Bool.false_ne_true hcadd

theorem buildPath_spec (M : List (List Int)) (n s : Nat) (dist parents : List Int)
    (hps : parents.getD s (-1) = -1)
    (hpar : ∀ v, v < n → v ≠ s → dist.getD v INF < INF → parents.getD v (-1) ≠ -1)
    (hpspec : ∀ v, v < n → parents.getD v (-1) ≠ -1 →
      ∃ u, u < n ∧ parents.getD v (-1) = (u : Int) ∧ 0 < getEntry M u v ∧
        dist.getD u INF + getEntry M u v ≤ dist.getD v INF) :
    ∀ fuel v, v < n → dist.getD v INF < INF → distRank dist n v ≤ fuel →
      (buildPath parents fuel v).head? = some s ∧
      (buildPath parents fuel v).getLast? = some v ∧
      List.Chain' (fun a b => 0 < getEntry M a b) (buildPath parents fuel v) ∧
      buildPath parents fuel v ≠ [] := by
  intro fuel
  induction fuel with
  | zero =>
      intro v hv hfin hrk
      have hvs : v = s := by
        by_contra hvs
        have hpne := hpar v hv hvs hfin
        obtain ⟨u, hun, _, hupos, hule⟩ := hpspec v hv hpne
        have hlt : dist.getD u INF < dist.getD v INF := by omega
        have := distRank_lt_of_closer dist n u v hun hlt
        omega
      subst hvs
      exact ⟨rfl, rfl, List.chain'_singleton v, List.cons_ne_nil v []⟩
  | succ fuel ih =>
      intro v hv hfin hrk
      by_cases hpv : parents.getD v (-1) = -1
      · have hvs : v = s := by
          by_contra hvs
          exact hpar v hv hvs hfin hpv
        subst hvs
        have hbp : buildPath parents (fuel + 1) v = [v] := by
          rw [buildPath, if_pos hpv]
        rw [hbp]
        exact ⟨rfl, rfl, List.chain'_singleton v, by simp⟩
      · obtain ⟨u, hun, hueq, hupos, hule⟩ := hpspec v hv hpv
        have hulfin : dist.getD u INF < INF := by omega
        have hlt : dist.getD u INF < dist.getD v INF := by omega
        have hrku : distRank dist n u ≤ fuel := by
          have := distRank_lt_of_closer dist n u v hun hlt
          omega
        obtain ⟨ihh, ihl, ihc, ihne⟩ := ih u hun hulfin hrku
        have hbp : buildPath parents (fuel + 1) v
            = buildPath parents fuel (parents.getD v (-1)).toNat ++ [v] := by
          rw [buildPath, if_neg hpv]
        have htn : (parents.getD v (-1)).toNat = u := by
          rw [hueq]
          omega
        rw [hbp, htn]
        refine ⟨?_, ?_, ?_, ?_⟩
        · rw [List.head?_append, ihh]
          rfl
        · exact List.getLast?_concat _
        · rw [List.chain'_append]
          refine ⟨ihc, List.chain'_singleton v, ?_⟩
          intro x hx y hy
          rw [ihl] at hx
          have hxu : u = x := by
            simpa using hx
          have hyv : v = y := by
            simpa using hy
          rw [← hxu, ← hyv]
          exact hupos
        · simp

theorem InvT_init (M : List (List Int)) (n s dest : Nat) (W : Int) (hs : s < n) :
    InvT M n s dest W (initState n s) := by
  have hslen : s < (List.replicate n INF).length := by
    rw [List.length_replicate]
    exact hs
  have hdist : ∀ v, v < n → (initState n s).dist.getD v INF
      = if v = s then 0 else INF := by
    intro v hv
    by_cases hvs : v = s
    · subst hvs
      rw [if_pos rfl]
      exact getD_set_self_any _ _ _ _ hslen
    · rw [if_neg hvs]
      show ((List.replicate n INF).set s 0).getD v INF = INF
      rw [getD_set_ne_any _ _ _ _ _ (fun h => hvs h.symm)]
      exact getD_replicate_any n INF INF v hv
  refine ⟨?_, ?_, ?_, ?_, ?_, ?_, ?_, ?_, ?_, ?_, ?_, ?_⟩
  · show ((List.replicate n INF).set s 0).length = n
    rw [List.length_set, List.length_replicate]
  · show (List.replicate n false).length = n
    rw [List.length_replicate]
  · show (List.replicate n (-1 : Int)).length = n
    rw [List.length_replicate]
  · rw [hdist s hs, if_pos rfl]
  · exact getD_replicate_any n (-1) (-1) s hs
  · intro v hv
    rw [hdist v hv]
    by_cases hvs : v = s
    · rw [if_pos hvs]
    · rw [if_neg hvs]
      exact le_of_lt INF_pos
  · intro v hv
    rw [hdist v hv]
    by_cases hvs : v = s
    · rw [if_pos hvs]
      exact le_of_lt INF_pos
    · rw [if_neg hvs]
  · intro v hv hfin
    rw [hdist v hv] at hfin ⊢
    by_cases hvs : v = s
    · rw [if_pos hvs]
      have h0 : addedCount (initState n s).added = 0 := addedCount_replicate_false n
      rw [h0]
      simp
    · rw [if_neg hvs] at hfin
      exact absurd hfin (lt_irrefl INF)
  · intro v hv hfin
    rw [hdist v hv] at hfin
    by_cases hvs : v = s
    · subst hvs
      exact Relation.ReflTransGen.refl
    · rw [if_neg hvs] at hfin
      exact absurd hfin (lt_irrefl INF)
  · intro v hv hvs hfin
    rw [hdist v hv, if_neg hvs] at hfin
    exact absurd hfin (lt_irrefl INF)
  · intro v hv hpne
    exfalso
    exact hpne (getD_replicate_any n (-1) (-1) v hv)
  · intro u hu hutrue
    exfalso
    have h1 : (initState n s).added.getD u false = false :=
      getD_replicate_any n false false u hu
    rw [h1] at hutrue
    exact Bool.false_ne_true hutrue

/-- **C5 (corrected).** The single-target query `dijkstra_to_target` reports
the sentinel distance `sys.maxsize` (its only "no result" signal — the
`Unreachable` outcome of the spec) *exactly* when no directed path of
positive-weight edges exists from `s` to `dest` **only under a weight bound**
`n * W < sys.maxsize`; under that bound, when the destination is reachable
the reported path runs from `s` to `dest` inclusive along positive-weight
edges. (Without the bound the equivalence fails: see the counterexample,
where a reachable destination is reported at the sentinel.) -/
theorem C5_single_target (M : List (List Int)) (n : Nat) (W : Int) (s dest : Nat)
    (hsq : Square M n) (hnn : NonNegMatrix M)
    (hent : ∀ i, i < n → ∀ j, j < n → getEntry M i j ≤ W)
    (hW : 0 ≤ W) (hbound : (n : Int) * W < INF)
    (hn : 0 < n) (hs : s < n) (hdest : dest < n) :
    ((dijkstraToTarget M s dest).1 < INF ↔ Reach M n s dest) ∧
    (Reach M n s dest →
      (dijkstraToTarget M s dest).2.head? = some s ∧
      (dijkstraToTarget M s dest).2.getLast? = some dest ∧
      List.Chain' (fun a b => 0 < getEntry M a b) (dijkstraToTarget M s dest).2) := by
  have hent2 : ∀ i j, i < n → j < n → getEntry M i j ≤ W :=
    fun i j hi hj => hent i hi j hj
  have hrow0 := row0_length M n hsq hn
  have hdt1 : (dijkstraToTarget M s dest).1
      = (djLoopT M n dest n (initState n s)).dist.getD dest INF := by
    show (djLoopT M (M.getD 0 []).length dest (M.getD 0 []).length
        (initState (M.getD 0 []).length s)).dist.getD dest INF = _
    rw [hrow0]
  have hdt2 : (dijkstraToTarget M s dest).2
      = buildPath (djLoopT M n dest n (initState n s)).parents n dest := by
    show buildPath (djLoopT M (M.getD 0 []).length dest (M.getD 0 []).length
        (initState (M.getD 0 []).length s)).parents (M.getD 0 []).length dest = _
    rw [hrow0]
  have hinit := InvT_init M n s dest W hs
  have hadf0 : (initState n s).added.getD dest false = false :=
    getD_replicate_any n false false dest hdest
  obtain ⟨invR, hdisj⟩ :=
    djLoopT_loop M n s dest W hW hbound hent2 hs n (initState n s) hinit hadf0
  have hback : Reach M n s dest →
      (djLoopT M n dest n (initState n s)).dist.getD dest INF < INF := by
    intro hr
    by_cases hsd : s = dest
    · subst hsd
      rw [invR.hds]
      exact INF_pos
    · rcases hdisj with hfin | ⟨hadfR, hall⟩ | ⟨hadfR, hge⟩
      · exact hfin
      · exact absurd rfl
          (reach_visited_of_closed M n s dest W _ invR hadfR hall hs hsd dest hr).2
      · exfalso
        have h0 : addedCount (initState n s).added = 0 := addedCount_replicate_false n
        rw [h0] at hge
        have hlt := addedCount_lt_of_unvisited
          (djLoopT M n dest n (initState n s)).added dest
          (by rw [invR.hal]; exact hdest) hadfR
        rw [invR.hal] at hlt
        omega
  constructor
  · rw [hdt1]
    constructor
    · intro hfin
      exact invR.hreach dest hdest hfin
    · exact hback
  · intro hr
    have hfin := hback hr
    have hrk : distRank (djLoopT M n dest n (initState n s)).dist n dest ≤ n :=
      distRank_le _ n dest
    obtain ⟨hh, hl, hc, _⟩ := buildPath_spec M n s
      (djLoopT M n dest n (initState n s)).dist
      (djLoopT M n dest n (initState n s)).parents
      invR.hps invR.hpar invR.hpspec n dest hdest hfin hrk
    rw [hdt2]
    exact ⟨hh, hl, hc⟩

/-- **C5 counterexample.** On `[[0, sys.maxsize], [0, 0]]` the edge `0 → 1`
is positive, so node 1 is reachable from node 0, yet `dijkstra_to_target`
reports distance `sys.maxsize` — the same sentinel it reports for a truly
unreachable destination — because the relaxation guard
`0 + maxsize < maxsize` is false. The claim's "fails … exactly when no
directed path exists" is therefore wrong for the code as written. -/
theorem C5_counterexample :
    (0 : Int) < getEntry [[0, 2 ^ 63 - 1], [0, 0]] 0 1 ∧
    Reach [[0, 2 ^ 63 - 1], [0, 0]] 2 0 1 ∧
    (dijkstraToTarget [[0, 2 ^ 63 - 1], [0, 0]] 0 1).1 = INF :=
  ⟨by decide,
    Relation.ReflTransGen.single
      (show (0 : Nat) < 2 ∧ (1 : Nat) < 2
          ∧ (0 : Int) < getEntry [[0, 2 ^ 63 - 1], [0, 0]] 0 1 by decide),
    by decide⟩

theorem C5_witness :
    (0 : Int) ≤ 5 ∧
    (((dijkstraToTarget [[0, 5], [0, 0]] 0 1).1 < INF ↔ Reach [[0, 5], [0, 0]] 2 0 1) ∧
      (Reach [[0, 5], [0, 0]] 2 0 1 →
        (dijkstraToTarget [[0, 5], [0, 0]] 0 1).2.head? = some 0 ∧
        (dijkstraToTarget [[0, 5], [0, 0]] 0 1).2.getLast? = some 1 ∧
        List.Chain' (fun a b => 0 < getEntry [[0, 5], [0, 0]] a b)
          (dijkstraToTarget [[0, 5], [0, 0]] 0 1).2)) := by
  refine ⟨by decide, ?_⟩
  exact C5_single_target [[0, 5], [0, 0]] 2 5 0 1
    (show ([[(0 : Int), 5], [0, 0]] : List (List Int)).length = 2
        ∧ ∀ r ∈ ([[(0 : Int), 5], [0, 0]] : List (List Int)), r.length = 2 by decide)
    (show ∀ r ∈ ([[(0 : Int), 5], [0, 0]] : List (List Int)), ∀ x ∈ r, 0 ≤ x by decide)
    (by decide) (by decide) (by decide) (by decide) (by decide) (by decide)

end Amo
